import Mathlib

/-!
# Verification of the pushshift user-segmenter core

Shallow embedding of the repository's three source files
(`src/main.rs`, `src/migrate.rs`, `src/text/text_item.rs`) and proofs
about the properties claimed in the specification.

Modelling conventions:
* Rust `Vec<u8>` keys become `List Nat` (each entry a byte value).
* Rust `u64` counters become `Nat` combined with wrapping addition
  modulo `2 ^ 64` (`wadd`), the release-mode semantics of `AddAssign`.
* Rust `BTreeMap` is modelled by its observable state: an association
  list strictly sorted by key (`SortedK`), which is exactly the
  iteration order a `BTreeMap` exposes.
-/

/-- `2 ^ 64`, the modulus of Rust's `u64` arithmetic. -/
def U64M : Nat := 2 ^ 64

/-- Wrapping `u64` addition: release-mode semantics of `AddAssign` on `u64`. -/
def wadd (a b : Nat) : Nat := (a + b) % U64M

/-- Strict lexicographic order on byte strings: the order `BTreeMap<Vec<u8>, _>`
uses for its keys. -/
def keyLt : List Nat → List Nat → Bool
  | [], [] => false
  | [], _ :: _ => true
  | _ :: _, [] => false
  | a :: as, b :: bs => if a < b then true else if b < a then false else keyLt as bs

/-- Byte-string keys. -/
abbrev Key := List Nat

/-- Association lists with byte-string keys, the abstract state of a
`BTreeMap<Vec<u8>, α>`. -/
abbrev AListB (α : Type) := List (Key × α)

/-- First-match lookup in an association list. -/
def lookupA {α : Type} : AListB α → Key → Option α
  | [], _ => none
  | (k', v) :: rest, k => if k' = k then some v else lookupA rest k

/-- Keys strictly increasing: the invariant of a `BTreeMap`'s entry sequence. -/
def SortedK {α : Type} (m : AListB α) : Prop :=
  List.Pairwise (fun a b => keyLt a.1 b.1 = true) m

/-- `map.entry(k).or_insert(0).add_assign(v)` on a `BTreeMap<Vec<u8>, u64>`:
get-or-create the counter at `k`, then wrapping-add `v` to it
(`text_item.rs` lines 37–42 and the identical fold/reduce bodies in
`main.rs` lines 172–177 and 191–196). -/
def insertAdd (m : AListB Nat) (k : Key) (v : Nat) : AListB Nat :=
  match m with
  | [] => [(k, wadd 0 v)]
  | (k', v') :: rest =>
    if keyLt k k' then (k, wadd 0 v) :: (k', v') :: rest
    else if k' = k then (k', wadd v' v) :: rest
    else (k', v') :: insertAdd rest k v

/-- Inner word-frequency maps: `PooMapInner = BTreeMap<Vec<u8>, u64>`. -/
abbrev PooMapInner := AListB Nat

/-- Outer corpora: `PooMap = BTreeMap<Vec<u8>, PooMapInner>`. -/
abbrev PooMap := AListB PooMapInner

/-- The inner loop of `TextItem::ingest` (`text_item.rs` lines 37–42): fold
every `(word, freq)` of `b` into `a` with get-or-create-then-add. -/
def mergeInner (a b : PooMapInner) : PooMapInner :=
  b.foldl (fun acc p => insertAdd acc p.1 p.2) a

/-- `self.word_freqs.entry(author).or_insert_with(PooMapInner::new)` followed
by the word loop: get-or-create the author's inner map, then merge `freqs`
into it (`text_item.rs` lines 31–43). -/
def insertMerge (m : PooMap) (k : Key) (freqs : PooMapInner) : PooMap :=
  match m with
  | [] => [(k, mergeInner [] freqs)]
  | (k', v') :: rest =>
    if keyLt k k' then (k, mergeInner [] freqs) :: (k', v') :: rest
    else if k' = k then (k', mergeInner v' freqs) :: rest
    else (k', v') :: insertMerge rest k freqs

/-- `TextItem::ingest` (`text_item.rs` lines 30–44), which is also the body of
the rayon `reduce` in `main.rs` lines 182–201: merge every author of `b`
into `a`. -/
def mergeOuter (a b : PooMap) : PooMap :=
  b.foldl (fun acc p => insertMerge acc p.1 p.2) a

/-- A decoded record after the parallel `map` stage of `main.rs` lines
158–163: author bytes paired with the word-frequency map
`TextItem::process_alt` produced from the body. -/
abbrev RecT := Key × PooMapInner

/-- The body of the rayon `fold` in `main.rs` lines 164–181: fold one record
into a partial two-level map. -/
def stepRec (acc : PooMap) (r : RecT) : PooMap :=
  insertMerge acc r.1 r.2

/-- One worker's fold over its records, starting from `PooMap::new()`
(`main.rs` lines 164–181). -/
def batchResult (recs : List RecT) : PooMap :=
  recs.foldl stepRec []

/-- Values of an inner map are in `u64` range, as they are in the Rust code. -/
def VOK (m : PooMapInner) : Prop := ∀ p ∈ m, p.2 < U64M

/-- Well-formed inner map: the observable state of a real
`BTreeMap<Vec<u8>, u64>`. -/
def WFInner (m : PooMapInner) : Prop := SortedK m ∧ VOK m

/-- Well-formed corpus: sorted outer keys, every inner map well-formed. -/
def WFOuter (m : PooMap) : Prop := SortedK m ∧ ∀ p ∈ m, WFInner p.2

instance {α : Type} (m : AListB α) : Decidable (SortedK m) :=
  inferInstanceAs (Decidable
    (List.Pairwise (fun (a b : Key × α) => keyLt a.1 b.1 = true) m))

instance (m : PooMapInner) : Decidable (VOK m) :=
  inferInstanceAs (Decidable (∀ p ∈ m, p.2 < U64M))

instance (m : PooMapInner) : Decidable (WFInner m) :=
  inferInstanceAs (Decidable (SortedK m ∧ VOK m))

instance (m : PooMap) : Decidable (WFOuter m) :=
  inferInstanceAs (Decidable (SortedK m ∧ ∀ p ∈ m, WFInner p.2))

/-- How the merged value at one key is computed: absent on the right leaves
the left value; present on the right get-or-creates then wrapping-adds. -/
def combineN (x y : Option Nat) : Option Nat :=
  match y with
  | none => x
  | some v => some (wadd (x.getD 0) v)

-- ## A generic get-or-create insert, to share key-structure proofs
-- between the inner (`insertAdd`) and outer (`insertMerge`) levels.

/-- Generic `entry(k)` get-or-create insert: combine the existing value
(if any) with the incoming one via `f`. -/
def insertWithC {α : Type} (f : Option α → α → α) (m : AListB α) (k : Key) (v : α) :
    AListB α :=
  match m with
  | [] => [(k, f none v)]
  | (k', v') :: rest =>
    if keyLt k k' then (k, f none v) :: (k', v') :: rest
    else if k' = k then (k', f (some v') v) :: rest
    else (k', v') :: insertWithC f rest k v

-- ## Outer merge: preservation, characterization, algebra

/-- How the merged inner map at one author is computed: absent on the right
leaves the left inner map; present on the right get-or-creates then merges. -/
def combineO (x y : Option PooMapInner) : Option PooMapInner :=
  match y with
  | none => x
  | some fr => some (mergeInner (x.getD []) fr)

/-- An arbitrary shape of pairwise reduction, as rayon's `reduce` may perform:
leaves are worker-local folds, inner nodes pairwise merges. -/
inductive RTree where
  | leaf (recs : List RecT)
  | node (l r : RTree)

/-- Evaluate a reduction tree: fold each leaf with the worker fold, combine
partial maps pairwise with the `ingest` merge. -/
def reduceTree : RTree → PooMap
  | .leaf recs => batchResult recs
  | .node l r => mergeOuter (reduceTree l) (reduceTree r)

/-- The records of a reduction tree, in left-to-right order. -/
def flattenT : RTree → List RecT
  | .leaf recs => recs
  | .node l r => flattenT l ++ flattenT r

-- ## Tokenizer (`TextItem::process_alt`)

/-- The character classification and casefolding tables consulted by Rust's
`char::is_alphanumeric`, `char::is_whitespace` and `str::to_lowercase`.
They are Unicode data external to the repository, so the pipeline is
parameterized over them; an ASCII instantiation (all the concrete examples
need) is given below. -/
structure CharTables where
  isAlnum : Char → Bool
  isWs : Char → Bool
  lowerStr : List Char → List Char

/-- UTF-8 encoding of one scalar value, as `str::as_bytes` exposes it. -/
def utf8Char (c : Char) : List Nat :=
  let n := c.toNat
  if n < 0x80 then [n]
  else if n < 0x800 then [0xC0 + n / 64, 0x80 + n % 64]
  else if n < 0x10000 then [0xE0 + n / 4096, 0x80 + (n / 64) % 64, 0x80 + n % 64]
  else [0xF0 + n / 262144, 0x80 + (n / 4096) % 64, 0x80 + (n / 64) % 64, 0x80 + n % 64]

/-- UTF-8 bytes of a character sequence: `str::as_bytes`. -/
def utf8 (s : List Char) : Key := (s.map utf8Char).flatten

/-- Rust `str::trim`: strip leading and trailing whitespace. -/
def trimWs (ws : Char → Bool) (s : List Char) : List Char :=
  ((s.dropWhile ws).reverse.dropWhile ws).reverse

/-- Worker for `splitWs`: `acc` holds the current token reversed. -/
def splitWsAux (ws : Char → Bool) : List Char → List Char → List (List Char)
  | [], acc => if acc.isEmpty then [] else [acc.reverse]
  | c :: rest, acc =>
    if ws c then
      if acc.isEmpty then splitWsAux ws rest []
      else acc.reverse :: splitWsAux ws rest []
    else splitWsAux ws rest (c :: acc)

/-- Rust `str::split_whitespace`: the maximal runs of non-whitespace
characters, in order. -/
def splitWs (ws : Char → Bool) (s : List Char) : List (List Char) :=
  splitWsAux ws s []

/-- `TextItem::process_alt` (`text_item.rs` lines 47–69): retain alphanumeric
and whitespace characters, lowercase the result, split on whitespace, and
count each trimmed token (keyed by its UTF-8 bytes) with
get-or-create-then-add-1. -/
def process_alt (T : CharTables) (text : List Char) : PooMapInner :=
  (splitWs T.isWs
      (T.lowerStr (text.filter (fun c => T.isAlnum c || T.isWs c)))).foldl
    (fun acc word => insertAdd acc (utf8 (trimWs T.isWs word)) 1) []

/-- The token list described by the specification: retain alphanumeric and
whitespace characters, casefold, split on runs of whitespace. -/
def specTokens (T : CharTables) (text : List Char) : List (List Char) :=
  splitWs T.isWs (T.lowerStr (text.filter (fun c => T.isAlnum c || T.isWs c)))

/-- ASCII instantiation of the tables: on ASCII input it agrees with the
Unicode tables Rust consults. -/
def asciiTables : CharTables where
  isAlnum := Char.isAlphanum
  isWs := Char.isWhitespace
  lowerStr := fun s => s.map Char.toLower

-- ## Frame reader (`read_until`, `main.rs` lines 31–59)

/-- One observable response of the underlying `BufRead` source: an available
buffer (`fill_buf`), or an I/O error (`interrupted = true` models
`ErrorKind::Interrupted`). The end of the list is end-of-input: `fill_buf`
then returns an empty buffer. -/
inductive SrcEv where
  | chunk (bs : List Nat)
  | ioerr (interrupted : Bool)
  deriving DecidableEq

/-- A byte source: the schedule of `fill_buf` responses. -/
abbrev Src := List SrcEv

/-- `core::slice::memchr::memchr`: index of the first occurrence of `delim`. -/
def memchr (delim : Nat) : List Nat → Option Nat
  | [] => none
  | b :: rest => if b = delim then some 0 else (memchr delim rest).map (· + 1)

/-- Source state after `consume(used)` on an available buffer `bs`: the
unconsumed suffix stays at the front. -/
def consumeSrc (bs : List Nat) (used : Nat) (rest : Src) : Src :=
  if (bs.drop used).isEmpty then rest else SrcEv.chunk (bs.drop used) :: rest

/-- `read_until` (`main.rs` lines 31–59): repeatedly `fill_buf`, scan for the
delimiter with `memchr`, extend `buf` with the scanned bytes and `consume`
them; retry interrupted reads, surface other errors; return once the
delimiter is found or a zero-length buffer is observed. Returns the Rust
function's result (bytes consumed and the extended buffer) together with the
remaining source. -/
def read_until (delim : Nat) : Src → List Nat → Nat →
    (Except Unit (Nat × List Nat)) × Src
  | [], buf, readn => (Except.ok (readn, buf), [])
  | SrcEv.chunk bs :: rest, buf, readn =>
    match memchr delim bs with
    | some i =>
      (Except.ok (readn + (i + 1), buf ++ bs.take (i + 1)), consumeSrc bs (i + 1) rest)
    | none =>
      if bs.isEmpty then (Except.ok (readn, buf), SrcEv.chunk bs :: rest)
      else read_until delim rest (buf ++ bs) (readn + bs.length)
  | SrcEv.ioerr true :: rest, buf, readn => read_until delim rest buf readn
  | SrcEv.ioerr false :: rest, _, _ => (Except.error (), rest)

/-- Fuelled variant of `read_until`: one unit of fuel per iteration of the
Rust loop, `none` when the fuel runs out before the loop returns. -/
def read_untilF (delim : Nat) : Nat → Src → List Nat → Nat →
    Option ((Except Unit (Nat × List Nat)) × Src)
  | 0, _, _, _ => none
  | _ + 1, [], buf, readn => some (Except.ok (readn, buf), [])
  | fuel + 1, SrcEv.chunk bs :: rest, buf, readn =>
    match memchr delim bs with
    | some i =>
      some (Except.ok (readn + (i + 1), buf ++ bs.take (i + 1)), consumeSrc bs (i + 1) rest)
    | none =>
      if bs.isEmpty then some (Except.ok (readn, buf), SrcEv.chunk bs :: rest)
      else read_untilF delim fuel rest (buf ++ bs) (readn + bs.length)
  | fuel + 1, SrcEv.ioerr true :: rest, buf, readn => read_untilF delim fuel rest buf readn
  | _ + 1, SrcEv.ioerr false :: rest, _, _ => some (Except.error (), rest)

/-- All remaining bytes of a source, ignoring error events. -/
def flatSrc : Src → List Nat
  | [] => []
  | SrcEv.chunk bs :: rest => bs ++ flatSrc rest
  | SrcEv.ioerr _ :: rest => flatSrc rest

/-- A well-formed source event: a non-empty available buffer (the `BufRead`
contract: an empty `fill_buf` result means end-of-input, which the end of
the event list models). -/
def evOK : SrcEv → Prop
  | SrcEv.chunk bs => bs ≠ []
  | SrcEv.ioerr _ => False

instance : (e : SrcEv) → Decidable (evOK e)
  | SrcEv.chunk bs => inferInstanceAs (Decidable (bs ≠ []))
  | SrcEv.ioerr _ => inferInstanceAs (Decidable False)

/-- A well-formed error-free source: every event is a non-empty buffer. -/
def chunksOnly (s : Src) : Prop := ∀ e ∈ s, evOK e

instance (s : Src) : Decidable (chunksOnly s) :=
  inferInstanceAs (Decidable (∀ e ∈ s, evOK e))

instance {ε α : Type} [DecidableEq ε] [DecidableEq α] : DecidableEq (Except ε α)
  | Except.ok x, Except.ok y =>
    if h : x = y then isTrue (by rw [h])
    else isFalse (by intro he; cases he; exact h rfl)
  | Except.ok _, Except.error _ => isFalse (by intro h; cases h)
  | Except.error _, Except.ok _ => isFalse (by intro h; cases h)
  | Except.error e, Except.error f =>
    if h : e = f then isTrue (by rw [h])
    else isFalse (by intro he; cases he; exact h rfl)

/-- Bytes `read_until` consumes from a source with byte content `flat`:
up to and including the first delimiter, or everything. -/
def consumedLen (delim : Nat) (flat : List Nat) : Nat :=
  match memchr delim flat with
  | some i => i + 1
  | none => flat.length

-- ## Pipeline driver reading loop (`run_for_file`, `main.rs` lines 110–205)

/-- `per_iter` (`main.rs` line 113): the batch size of loop `'b`. -/
def per_iter : Nat := 10000

/-- One iteration's input to the batch loop, with the external decoders
abstracted to their observable outcome: an I/O error from `read_until`
(`dbg!` then `break 'a`), a zero-length line, a line `simd_json` rejects, or
a line decoding to a `Comment` — carried as the author's bytes paired with
the word-frequency map `process_alt` extracts from the body (the pure
per-record computation of the parallel `map` at `main.rs` lines 158–163).
The end of the list is end-of-input: `read_until` then yields an empty
buffer, which takes the `line.len() == 0` branch. -/
inductive LineEv where
  | ioerr
  | emptyLine
  | badLine
  | goodLine (author : Key) (freqs : PooMapInner)
  deriving DecidableEq

/-- A decoded record as a line event. -/
def toGood (r : RecT) : LineEv := LineEv.goodLine r.1 r.2

/-- Outcome of one run of batch loop `'b` (`main.rs` lines 120–154):
`ingest` falls through to the `ti.ingest` call at line 156 with the decoded
`comments`; `abort` is `break 'a`, which skips that call and ends reading. -/
inductive BOut where
  | ingest (cs : List RecT) (e : Nat) (rest : List LineEv)
  | abort (e : Nat) (rest : List LineEv)
  deriving DecidableEq

/-- Loop `'b` (`main.rs` lines 120–154): up to `fuel` (= `per_iter`)
iterations; `e` is `err_cnt`, `cs` the `comments` vector. A zero-length line
increments `err_cnt` and either breaks `'a` (budget exceeded) or breaks `'b`;
a rejected line increments `err_cnt` and either breaks `'a` or continues;
a decoded line is pushed onto the batch. -/
def processB : Nat → List LineEv → Nat → List RecT → BOut
  | 0, lines, e, cs => BOut.ingest cs e lines
  | _ + 1, [], e, cs =>
    if e + 1 > 10 then BOut.abort (e + 1) [] else BOut.ingest cs (e + 1) []
  | _ + 1, LineEv.ioerr :: rest, e, _ => BOut.abort e rest
  | _ + 1, LineEv.emptyLine :: rest, e, cs =>
    if e + 1 > 10 then BOut.abort (e + 1) rest else BOut.ingest cs (e + 1) rest
  | fuel + 1, LineEv.badLine :: rest, e, cs =>
    if e + 1 > 10 then BOut.abort (e + 1) rest else processB fuel rest (e + 1) cs
  | fuel + 1, LineEv.goodLine a w :: rest, e, cs =>
    processB fuel rest e (cs ++ [(a, w)])

/-- Loop `'a` (`main.rs` lines 117–205), fuelled: run batches until a
`break 'a`, merging each ingested batch's fold/reduce result into the
running corpus (`ti.ingest` at line 156; the data-parallel fold/reduce
computes `batchResult cs` by `reduceTree_eq`). Returns the corpus that
reaches serialization and the unread remainder of the input. -/
def runLoopF : Nat → List LineEv → Nat → PooMap → Option (PooMap × List LineEv)
  | 0, _, _, _ => none
  | fuel + 1, lines, e, corpus =>
    match processB per_iter lines e [] with
    | BOut.ingest cs e' rest =>
      runLoopF fuel rest e' (mergeOuter corpus (batchResult cs))
    | BOut.abort _ rest => some (corpus, rest)

/-- The whole reading phase of `run_for_file`: loop `'a` from an empty
`TextItem` and `err_cnt = 0`, with fuel `runLoopF_total` shows sufficient. -/
def runReading (lines : List LineEv) : Option (PooMap × List LineEv) :=
  runLoopF (lines.length + 12) lines 0 []

-- ## Corpus codec
-- Modelled from the spec: the repository's `serializer` module
-- (`serialize_with_writer`, `deserialize`, `SerializerFeedback`) is invoked
-- from `main.rs` and `migrate.rs` but its source file is absent from the
-- snapshot. The byte framing below follows spec §4.5: outer entry count,
-- then per author — author byte length, author bytes, inner entry count,
-- then per word — word byte length, word bytes, 8-byte count; every integer
-- as 8 bytes in one fixed (little-endian) byte order.

/-- Modelled from the spec: an integer as 8 little-endian bytes (§4.5, "All
multi-byte integers use a single fixed, documented byte order"). -/
def u64le (n : Nat) : List Nat :=
  [n % 256, n / 256 % 256, n / 256 ^ 2 % 256, n / 256 ^ 3 % 256,
   n / 256 ^ 4 % 256, n / 256 ^ 5 % 256, n / 256 ^ 6 % 256, n / 256 ^ 7 % 256]

/-- Modelled from the spec: one encoded inner (word → count) map. -/
def encodeInner (m : PooMapInner) : List Nat :=
  u64le m.length ++ (m.map (fun p => u64le p.1.length ++ p.1 ++ u64le p.2)).flatten

/-- Modelled from the spec: `serialize_with_writer`'s byte stream for a
Corpus, walking it in its (sorted) entry order. -/
def serialize_with_writer (c : PooMap) : List Nat :=
  u64le c.length ++ (c.map (fun p => u64le p.1.length ++ p.1 ++ encodeInner p.2)).flatten

/-- Modelled from the spec: read one 8-byte little-endian integer, failing
on truncation. -/
def readU64 : List Nat → Except Unit (Nat × List Nat)
  | b0 :: b1 :: b2 :: b3 :: b4 :: b5 :: b6 :: b7 :: rest =>
    Except.ok (b0 + b1 * 256 + b2 * 256 ^ 2 + b3 * 256 ^ 3 + b4 * 256 ^ 4 +
      b5 * 256 ^ 5 + b6 * 256 ^ 6 + b7 * 256 ^ 7, rest)
  | _ => Except.error ()

/-- Modelled from the spec: read an exact number of raw bytes, failing on
truncation. -/
def readBytes (n : Nat) (bs : List Nat) : Except Unit (List Nat × List Nat) :=
  if n ≤ bs.length then Except.ok (bs.take n, bs.drop n) else Except.error ()

/-- Modelled from the spec: decode `n` inner (word, count) entries. -/
def decodeInnerEntries : Nat → List Nat → Except Unit (PooMapInner × List Nat)
  | 0, bs => Except.ok ([], bs)
  | n + 1, bs => do
    let (wl, bs) ← readU64 bs
    let (w, bs) ← readBytes wl bs
    let (cnt, bs) ← readU64 bs
    let (rest, bs) ← decodeInnerEntries n bs
    pure ((w, cnt) :: rest, bs)

/-- Modelled from the spec: decode `n` outer (author, inner map) entries. -/
def decodeOuterEntries : Nat → List Nat → Except Unit (PooMap × List Nat)
  | 0, bs => Except.ok ([], bs)
  | n + 1, bs => do
    let (al, bs) ← readU64 bs
    let (a, bs) ← readBytes al bs
    let (wc, bs) ← readU64 bs
    let (inner, bs) ← decodeInnerEntries wc bs
    let (rest, bs) ← decodeOuterEntries n bs
    pure ((a, inner) :: rest, bs)

/-- Modelled from the spec: `deserialize` — outer entry count, then that many
author entries; returns the Corpus and the unconsumed suffix, failing with a
decode error (not a crash) on truncated input. -/
def deserialize (bs : List Nat) : Except Unit (PooMap × List Nat) := do
  let (n, bs) ← readU64 bs
  decodeOuterEntries n bs

/-- Every integer the encoding must frame fits in 8 bytes: entry counts,
byte lengths and counts are `usize`/`u64` values in the Rust code. -/
def CorpusBounded (c : PooMap) : Prop :=
  c.length < U64M ∧ ∀ p ∈ c, p.1.length < U64M ∧ p.2.length < U64M ∧
    ∀ q ∈ p.2, q.1.length < U64M ∧ q.2 < U64M

/-- Author and word keys are byte strings: every element below 256. -/
def CorpusBytes (c : PooMap) : Prop :=
  ∀ p ∈ c, (∀ b ∈ p.1, b < 256) ∧ ∀ q ∈ p.2, ∀ b ∈ q.1, b < 256

instance (c : PooMap) : Decidable (CorpusBounded c) :=
  inferInstanceAs (Decidable (c.length < U64M ∧ ∀ p ∈ c,
    p.1.length < U64M ∧ p.2.length < U64M ∧ ∀ q ∈ p.2, q.1.length < U64M ∧ q.2 < U64M))

instance (c : PooMap) : Decidable (CorpusBytes c) :=
  inferInstanceAs (Decidable (∀ p ∈ c,
    (∀ b ∈ p.1, b < 256) ∧ ∀ q ∈ p.2, ∀ b ∈ q.1, b < 256))

-- ## Directory scan and skip logic (`main` in `main.rs` and `migrate.rs`)

/-- File names as byte strings. -/
def str2key (s : String) : Key := s.data.map Char.toNat

/-- The portion of a byte string after its final `.` (byte 46), if any. -/
def afterLastDot : List Nat → Option (List Nat)
  | [] => none
  | c :: rest =>
    match afterLastDot rest with
    | some e => some e
    | none => if c = 46 then some rest else none

/-- `Path::extension`: `none` without an embedded dot; a leading dot (hidden
file) does not start an extension; otherwise the part after the final dot. -/
def extension (name : List Nat) : Option (List Nat) :=
  match name with
  | [] => none
  | c :: rest => if c = 46 then afterLastDot rest else afterLastDot (c :: rest)

/-- Insert into a name-sorted list (`files.sort_by` on file names). -/
def insertSorted (k : Key) : List Key → List Key
  | [] => [k]
  | x :: xs => if keyLt k x then k :: x :: xs else x :: insertSorted k xs

/-- Sort file names ascending, the deterministic processing order. -/
def sortKeys (l : List Key) : List Key := l.foldr insertSorted []

/-- The builder `main` (`main.rs` lines 245–284): keep files whose extension
is `zst`, sort by name, and process exactly those whose
`<name>.users.freqs` output is not already present in the directory. -/
def builderProcessed (dir : List Key) : List Key :=
  (sortKeys (dir.filter (fun f => decide (extension f = some (str2key "zst"))))).filter
    (fun f => decide ((f ++ str2key ".users.freqs") ∉ dir))

/-- The migrator `main` (`migrate.rs` lines 104–161): keep files whose
extension is `freqs`, sort by name, and process all of them — the per-file
loop has no check of the output path. -/
def migratorProcessed (dir : List Key) : List Key :=
  sortKeys (dir.filter (fun f => decide (extension f = some (str2key "freqs"))))

-- ## Serialization epilogue (`main.rs` lines 207–243, `migrate.rs` lines 66–101)

/-- Observable steps of `run_for_file` after the reading phase. -/
inductive WStep where
  | serializeCall
  | reportSerializeError (e : String)
  | finishCall
  | reportFinishError (e : String)
  deriving DecidableEq

/-- The epilogue of the builder's `run_for_file` (`main.rs` lines 220–242):
the result of `serialize_with_writer` is only mapped to an `eprintln!`
(no `?`, no `unwrap`), control falls through to `encoder.finish()`, whose
error is likewise only printed. The same lines appear verbatim in
`migrate.rs` lines 79–101 (`runForFileEpilogueMigrate`). -/
def runForFileEpilogue (ser fin : Except String Unit) : List WStep :=
  [WStep.serializeCall] ++
  (match ser with
   | Except.error e => [WStep.reportSerializeError e]
   | Except.ok _ => []) ++
  [WStep.finishCall] ++
  (match fin with
   | Except.error e => [WStep.reportFinishError e]
   | Except.ok _ => [])

/-- The identical epilogue of the migrator's `run_for_file`
(`migrate.rs` lines 79–101). -/
def runForFileEpilogueMigrate (ser fin : Except String Unit) : List WStep :=
  runForFileEpilogue ser fin

/-- The test at `main.rs` line 129 (`line.len() == 0`) that chooses the
empty-line soft-failure branch over the JSON-decode branch. -/
def takesEmptyLineBranch (line : List Nat) : Bool := line.length == 0

-- ## Theorems

-- ## Order lemmas for `keyLt`

theorem keyLt_irrefl (k : Key) : keyLt k k = false := by
  induction k with
  | nil => rfl
  | cons a as ih => simp [keyLt, ih]

theorem keyLt_trans {a b c : Key} (h1 : keyLt a b = true) (h2 : keyLt b c = true) :
    keyLt a c = true := by
  induction a generalizing b c with
  | nil =>
    cases b with
    | nil => simp [keyLt] at h1
    | cons y ys =>
      cases c with
      | nil => simp [keyLt] at h2
      | cons z zs => simp [keyLt]
  | cons x xs ih =>
    cases b with
    | nil => simp [keyLt] at h1
    | cons y ys =>
      cases c with
      | nil => simp [keyLt] at h2
      | cons z zs =>
        simp only [keyLt] at h1 h2 ⊢
        rcases Nat.lt_trichotomy x y with hxy | hxy | hxy
        · rcases Nat.lt_trichotomy y z with hyz | hyz | hyz
          · have : x < z := Nat.lt_trans hxy hyz
            simp [this]
          · subst hyz
            simp [hxy]
          · rw [if_neg (Nat.lt_asymm hyz), if_pos hyz] at h2
            exact absurd h2 (by simp)
        · subst hxy
          rw [if_neg (Nat.lt_irrefl x), if_neg (Nat.lt_irrefl x)] at h1
          rcases Nat.lt_trichotomy x z with hxz | hxz | hxz
          · simp [hxz]
          · subst hxz
            rw [if_neg (Nat.lt_irrefl x), if_neg (Nat.lt_irrefl x)] at h2
            rw [if_neg (Nat.lt_irrefl x), if_neg (Nat.lt_irrefl x)]
            exact ih h1 h2
          · rw [if_neg (Nat.lt_asymm hxz), if_pos hxz] at h2
            exact absurd h2 (by simp)
        · rw [if_neg (Nat.lt_asymm hxy), if_pos hxy] at h1
          exact absurd h1 (by simp)

theorem keyLt_trichotomy {a b : Key} (h1 : keyLt a b = false) (h2 : keyLt b a = false) :
    a = b := by
  induction a generalizing b with
  | nil =>
    cases b with
    | nil => rfl
    | cons y ys => simp [keyLt] at h1
  | cons x xs ih =>
    cases b with
    | nil => simp [keyLt] at h2
    | cons y ys =>
      simp only [keyLt] at h1 h2
      rcases Nat.lt_trichotomy x y with hxy | hxy | hxy
      · rw [if_pos hxy] at h1
        exact absurd h1 (by simp)
      · subst hxy
        rw [if_neg (Nat.lt_irrefl x), if_neg (Nat.lt_irrefl x)] at h1 h2
        rw [ih h1 h2]
      · rw [if_pos hxy] at h2
        exact absurd h2 (by simp)

theorem keyLt_asymm {a b : Key} (h : keyLt a b = true) : keyLt b a = false := by
  by_contra hc
  have hba : keyLt b a = true := by
    cases hh : keyLt b a
    · exact absurd hh hc
    · rfl
  have := keyLt_trans h hba
  rw [keyLt_irrefl] at this
  exact Bool.false_ne_true this

theorem keyLt_true_of_false_of_ne {a b : Key} (h : keyLt a b = false) (hne : a ≠ b) :
    keyLt b a = true := by
  cases hh : keyLt b a
  · exact absurd (keyLt_trichotomy h hh) hne
  · rfl

-- ## Lookup and insertion lemmas

theorem lookupA_eq_none_of_all_lt {α : Type} {m : AListB α} {k : Key}
    (h : ∀ q ∈ m, keyLt k q.1 = true) : lookupA m k = none := by
  induction m with
  | nil => rfl
  | cons p rest ih =>
    have hk : keyLt k p.1 = true := h p (List.mem_cons_self p rest)
    have hne : p.1 ≠ k := by
      intro he
      rw [he, keyLt_irrefl] at hk
      exact Bool.false_ne_true hk
    simp only [lookupA]
    rw [if_neg hne]
    exact ih (fun q hq => h q (List.mem_cons_of_mem p hq))

theorem lookupA_mem {α : Type} {m : AListB α} {k : Key} {v : α}
    (h : lookupA m k = some v) : (k, v) ∈ m := by
  induction m with
  | nil => simp [lookupA] at h
  | cons p rest ih =>
    simp only [lookupA] at h
    by_cases he : p.1 = k
    · rw [if_pos he] at h
      have : p = (k, v) := by
        cases p
        simp_all
      rw [this]
      exact List.mem_cons_self _ _
    · rw [if_neg he] at h
      exact List.mem_cons_of_mem p (ih h)

theorem mem_insertAdd_key {m : PooMapInner} {k : Key} {v : Nat} :
    ∀ q ∈ insertAdd m k v, q.1 = k ∨ q.1 ∈ m.map Prod.fst := by
  induction m with
  | nil =>
    intro q hq
    simp [insertAdd] at hq
    simp [hq]
  | cons p rest ih =>
    intro q hq
    simp only [insertAdd] at hq
    by_cases h1 : keyLt k p.1 = true
    · rw [if_pos h1] at hq
      rcases List.mem_cons.mp hq with h | h
      · left; rw [h]
      · right
        rcases List.mem_cons.mp h with h' | h'
        · simp [h']
        · simp
          right
          exact ⟨q.2, h'⟩
    · rw [if_neg h1] at hq
      by_cases h2 : p.1 = k
      · rw [if_pos h2] at hq
        rcases List.mem_cons.mp hq with h | h
        · left; rw [h, h2]
        · right
          simp
          right
          exact ⟨q.2, h⟩
      · rw [if_neg h2] at hq
        rcases List.mem_cons.mp hq with h | h
        · right; simp [h]
        · rcases ih q h with h' | h'
          · left; exact h'
          · right; simp; right; simpa using h'

theorem SortedK_insertAdd {m : PooMapInner} {k : Key} {v : Nat}
    (h : SortedK m) : SortedK (insertAdd m k v) := by
  induction m with
  | nil => simp [insertAdd, SortedK]
  | cons p rest ih =>
    rw [SortedK, List.pairwise_cons] at h
    obtain ⟨hhead, htail⟩ := h
    simp only [insertAdd]
    by_cases h1 : keyLt k p.1 = true
    · rw [if_pos h1]
      rw [SortedK, List.pairwise_cons]
      constructor
      · intro q hq
        rcases List.mem_cons.mp hq with h' | h'
        · rw [h']; exact h1
        · exact keyLt_trans h1 (hhead q h')
      · rw [List.pairwise_cons]
        exact ⟨hhead, htail⟩
    · rw [if_neg h1]
      by_cases h2 : p.1 = k
      · rw [if_pos h2]
        rw [SortedK, List.pairwise_cons]
        exact ⟨fun q hq => by rw [h2] at hhead ⊢; exact hhead q hq, htail⟩
      · rw [if_neg h2]
        rw [SortedK, List.pairwise_cons]
        constructor
        · intro q hq
          rcases mem_insertAdd_key q hq with h' | h'
          · rw [h']
            have hkp : keyLt k p.1 = false := by
              cases hh : keyLt k p.1
              · rfl
              · exact absurd hh h1
            exact keyLt_true_of_false_of_ne hkp (fun he => h2 he.symm)
          · rcases List.mem_map.mp h' with ⟨q', hq', he⟩
            rw [← he]
            exact hhead q' hq'
        · exact ih htail

theorem lookupA_insertAdd_self {m : PooMapInner} {k : Key} {v : Nat}
    (h : SortedK m) :
    lookupA (insertAdd m k v) k = some (wadd ((lookupA m k).getD 0) v) := by
  induction m with
  | nil => simp [insertAdd, lookupA]
  | cons p rest ih =>
    rw [SortedK, List.pairwise_cons] at h
    obtain ⟨hhead, htail⟩ := h
    simp only [insertAdd]
    by_cases h1 : keyLt k p.1 = true
    · rw [if_pos h1]
      have hne : p.1 ≠ k := by
        intro he
        rw [he, keyLt_irrefl] at h1
        exact Bool.false_ne_true h1
      have hrest : lookupA rest k = none :=
        lookupA_eq_none_of_all_lt (fun q hq => keyLt_trans h1 (hhead q hq))
      simp [lookupA, hne, hrest]
    · rw [if_neg h1]
      by_cases h2 : p.1 = k
      · rw [if_pos h2]
        simp only [lookupA]
        rw [if_pos h2, if_pos h2]
        rfl
      · rw [if_neg h2]
        simp only [lookupA]
        rw [if_neg h2, if_neg h2]
        exact ih htail

theorem lookupA_insertAdd_ne {m : PooMapInner} {k k' : Key} {v : Nat}
    (hne : k' ≠ k) : lookupA (insertAdd m k v) k' = lookupA m k' := by
  induction m with
  | nil =>
    simp only [insertAdd, lookupA]
    rw [if_neg (fun he => hne he.symm)]
  | cons p rest ih =>
    simp only [insertAdd]
    by_cases h1 : keyLt k p.1 = true
    · rw [if_pos h1]
      simp only [lookupA]
      rw [if_neg (fun he => hne he.symm)]
    · rw [if_neg h1]
      by_cases h2 : p.1 = k
      · rw [if_pos h2]
        simp only [lookupA]
        rw [if_neg (fun he => hne (h2 ▸ he).symm), if_neg (fun he => hne (h2 ▸ he).symm)]
      · rw [if_neg h2]
        simp only [lookupA]
        by_cases h3 : p.1 = k'
        · rw [if_pos h3, if_pos h3]
        · rw [if_neg h3, if_neg h3]
          exact ih

-- ## Wrapping-arithmetic lemmas

theorem U64M_pos : 0 < U64M := by decide

theorem wadd_lt (a b : Nat) : wadd a b < U64M := Nat.mod_lt _ U64M_pos

theorem wadd_comm (a b : Nat) : wadd a b = wadd b a := by
  simp [wadd, Nat.add_comm]

theorem wadd_assoc (a b c : Nat) : wadd (wadd a b) c = wadd a (wadd b c) := by
  simp only [wadd, Nat.mod_add_mod, Nat.add_mod_mod, Nat.add_assoc]

theorem wadd_mod_right (a b : Nat) : wadd a (b % U64M) = wadd a b := by
  simp only [wadd, Nat.add_mod_mod]

theorem wadd_zero_left (v : Nat) : wadd 0 v = v % U64M := by
  simp [wadd]

theorem wadd_self_of_lt {v : Nat} (h : v < U64M) : wadd 0 v = v := by
  simp [wadd, Nat.mod_eq_of_lt h]

theorem wadd_mod_left (a b : Nat) : wadd (a % U64M) b = wadd a b := by
  simp only [wadd, Nat.mod_add_mod]

theorem wadd_idem (a b : Nat) : wadd a b % U64M = wadd a b :=
  Nat.mod_eq_of_lt (wadd_lt a b)

theorem lookupA_nil {α : Type} (k : Key) : lookupA ([] : AListB α) k = none := rfl

-- ## Extensionality for sorted association lists

theorem lookupA_head {α : Type} (k : Key) (v : α) (rest : AListB α) :
    lookupA ((k, v) :: rest) k = some v := by
  simp [lookupA]

theorem lookupA_tail_of_sorted {α : Type} {p : Key × α} {rest : AListB α}
    (h : SortedK (p :: rest)) : lookupA rest p.1 = none := by
  rw [SortedK, List.pairwise_cons] at h
  exact lookupA_eq_none_of_all_lt (fun q hq => h.1 q hq)

theorem AListB_ext {α : Type} {a b : AListB α} (ha : SortedK a) (hb : SortedK b)
    (h : ∀ k, lookupA a k = lookupA b k) : a = b := by
  induction a generalizing b with
  | nil =>
    cases b with
    | nil => rfl
    | cons q bs =>
      have := h q.1
      rw [show lookupA ([] : AListB α) q.1 = none from rfl] at this
      cases q with
      | mk qk qv =>
        rw [lookupA_head] at this
        exact absurd this (by simp)
  | cons p as ih =>
    cases b with
    | nil =>
      have := h p.1
      cases p with
      | mk pk pv =>
        rw [lookupA_head] at this
        rw [show lookupA ([] : AListB α) pk = none from rfl] at this
        exact absurd this (by simp)
    | cons q bs =>
      cases p with
      | mk pk pv =>
        cases q with
        | mk qk qv =>
          have hkeys : pk = qk := by
            by_contra hne
            rcases hlt : keyLt pk qk with _ | _
            · have hlt2 : keyLt qk pk = true := keyLt_true_of_false_of_ne hlt hne
              have h1 := h qk
              rw [lookupA_head] at h1
              have : lookupA ((pk, pv) :: as) qk = none := by
                apply lookupA_eq_none_of_all_lt
                intro r hr
                rcases List.mem_cons.mp hr with h' | h'
                · rw [h']; exact hlt2
                · rw [SortedK, List.pairwise_cons] at ha
                  exact keyLt_trans hlt2 (ha.1 r h')
              rw [this] at h1
              exact absurd h1 (by simp)
            · have h1 := h pk
              rw [lookupA_head] at h1
              have : lookupA ((qk, qv) :: bs) pk = none := by
                apply lookupA_eq_none_of_all_lt
                intro r hr
                rcases List.mem_cons.mp hr with h' | h'
                · rw [h']; exact hlt
                · rw [SortedK, List.pairwise_cons] at hb
                  exact keyLt_trans hlt (hb.1 r h')
              rw [this] at h1
              exact absurd h1.symm (by simp)
          subst hkeys
          have hv : pv = qv := by
            have h1 := h pk
            rw [lookupA_head, lookupA_head] at h1
            exact Option.some.inj h1
          subst hv
          have htails : ∀ k, lookupA as k = lookupA bs k := by
            intro k
            by_cases hk : pk = k
            · subst hk
              rw [lookupA_tail_of_sorted ha, lookupA_tail_of_sorted hb]
            · have h1 := h k
              simp only [lookupA, if_neg hk] at h1
              exact h1
          rw [ih (List.Pairwise.sublist (List.sublist_cons_self _ _) ha)
              (List.Pairwise.sublist (List.sublist_cons_self _ _) hb) htails]

-- ## Inner merge: preservation and characterization

theorem SortedK_mergeInner {a : PooMapInner} (b : PooMapInner)
    (ha : SortedK a) : SortedK (mergeInner a b) := by
  induction b generalizing a with
  | nil => exact ha
  | cons p bs ih => exact ih (SortedK_insertAdd ha)

theorem VOK_insertAdd {m : PooMapInner} {k : Key} {v : Nat}
    (h : VOK m) : VOK (insertAdd m k v) := by
  induction m with
  | nil =>
    intro q hq
    simp [insertAdd] at hq
    rw [hq]
    exact wadd_lt 0 v
  | cons p rest ih =>
    intro q hq
    simp only [insertAdd] at hq
    by_cases h1 : keyLt k p.1 = true
    · rw [if_pos h1] at hq
      rcases List.mem_cons.mp hq with h' | h'
      · rw [h']; exact wadd_lt 0 v
      · exact h q h'
    · rw [if_neg h1] at hq
      by_cases h2 : p.1 = k
      · rw [if_pos h2] at hq
        rcases List.mem_cons.mp hq with h' | h'
        · rw [h']; exact wadd_lt p.2 v
        · exact h q (List.mem_cons_of_mem p h')
      · rw [if_neg h2] at hq
        rcases List.mem_cons.mp hq with h' | h'
        · rw [h']; exact h p (List.mem_cons_self p rest)
        · exact ih (fun r hr => h r (List.mem_cons_of_mem p hr)) q h'

theorem VOK_mergeInner {a : PooMapInner} (b : PooMapInner)
    (ha : VOK a) : VOK (mergeInner a b) := by
  induction b generalizing a with
  | nil => exact ha
  | cons p bs ih => exact ih (VOK_insertAdd ha)

theorem lookupA_mergeInner {a b : PooMapInner} (k : Key)
    (ha : SortedK a) (hb : SortedK b) :
    lookupA (mergeInner a b) k = combineN (lookupA a k) (lookupA b k) := by
  induction b generalizing a with
  | nil => rfl
  | cons p bs ih =>
    have hstep : mergeInner a (p :: bs) = mergeInner (insertAdd a p.1 p.2) bs := rfl
    rw [hstep, ih (SortedK_insertAdd ha)
        (List.Pairwise.sublist (List.sublist_cons_self _ _) hb)]
    by_cases hk : p.1 = k
    · subst hk
      rw [lookupA_insertAdd_self ha]
      have hbs : lookupA bs p.1 = none := lookupA_tail_of_sorted hb
      rw [hbs]
      cases p with
      | mk pk pv => rw [lookupA_head]; rfl
    · rw [lookupA_insertAdd_ne (fun he => hk he.symm)]
      cases p with
      | mk pk pv =>
        simp only [lookupA, if_neg hk]

theorem lookupA_VOK {m : PooMapInner} {k : Key} {v : Nat}
    (hm : VOK m) (h : lookupA m k = some v) : v < U64M :=
  hm (k, v) (lookupA_mem h)

-- ## Inner merge algebra

theorem mergeInner_comm {a b : PooMapInner} (ha : WFInner a) (hb : WFInner b) :
    mergeInner a b = mergeInner b a := by
  apply AListB_ext (SortedK_mergeInner b ha.1) (SortedK_mergeInner a hb.1)
  intro k
  rw [lookupA_mergeInner k ha.1 hb.1, lookupA_mergeInner k hb.1 ha.1]
  cases hla : lookupA a k with
  | none =>
    cases hlb : lookupA b k with
    | none => rfl
    | some vb => simp [combineN, wadd_self_of_lt (lookupA_VOK hb.2 hlb)]
  | some va =>
    cases hlb : lookupA b k with
    | none => simp [combineN, wadd_self_of_lt (lookupA_VOK ha.2 hla)]
    | some vb => simp [combineN, wadd_comm]

theorem SortedK_nil {α : Type} : SortedK ([] : AListB α) := List.Pairwise.nil

theorem mergeInner_assoc {a b c : PooMapInner}
    (ha : SortedK a) (hb : SortedK b) (hc : SortedK c) :
    mergeInner (mergeInner a b) c = mergeInner a (mergeInner b c) := by
  apply AListB_ext (SortedK_mergeInner c (SortedK_mergeInner b ha))
    (SortedK_mergeInner _ ha)
  intro k
  rw [lookupA_mergeInner k (SortedK_mergeInner b ha) hc,
      lookupA_mergeInner k ha hb,
      lookupA_mergeInner k ha (SortedK_mergeInner c hb),
      lookupA_mergeInner k hb hc]
  cases lookupA a k <;> cases lookupA b k <;> cases lookupA c k <;>
    simp [combineN, wadd_assoc, wadd_zero_left, wadd_mod_right, wadd_mod_left, wadd_idem]

theorem mergeInner_nil_left {b : PooMapInner} (hb : WFInner b) :
    mergeInner [] b = b := by
  apply AListB_ext (SortedK_mergeInner b SortedK_nil) hb.1
  intro k
  rw [lookupA_mergeInner k SortedK_nil hb.1]
  cases hlb : lookupA b k with
  | none => rfl
  | some vb => simp [combineN, lookupA_nil, hlb, wadd_self_of_lt (lookupA_VOK hb.2 hlb)]

theorem mergeInner_absorb {x c : PooMapInner} (hx : SortedK x) (hc : SortedK c) :
    mergeInner x (mergeInner [] c) = mergeInner x c := by
  apply AListB_ext (SortedK_mergeInner _ hx) (SortedK_mergeInner c hx)
  intro k
  rw [lookupA_mergeInner k hx (SortedK_mergeInner c SortedK_nil),
      lookupA_mergeInner k SortedK_nil hc,
      lookupA_mergeInner k hx hc]
  cases lookupA x k <;> cases lookupA c k <;>
    simp [combineN, lookupA_nil, wadd_zero_left, wadd_mod_right, wadd_mod_left, wadd_idem]

theorem WFInner_nil : WFInner [] := ⟨SortedK_nil, by intro p hp; cases hp⟩

theorem WFInner_mergeInner {a : PooMapInner} (b : PooMapInner)
    (ha : WFInner a) : WFInner (mergeInner a b) :=
  ⟨SortedK_mergeInner b ha.1, VOK_mergeInner b ha.2⟩

theorem insertAdd_eq_insertWithC (m : PooMapInner) (k : Key) (v : Nat) :
    insertAdd m k v = insertWithC (fun x w => wadd (x.getD 0) w) m k v := by
  induction m with
  | nil => rfl
  | cons p rest ih =>
    simp only [insertAdd, insertWithC, ih]
    rfl

theorem insertMerge_eq_insertWithC (m : PooMap) (k : Key) (freqs : PooMapInner) :
    insertMerge m k freqs =
      insertWithC (fun x fr => mergeInner (x.getD []) fr) m k freqs := by
  induction m with
  | nil => rfl
  | cons p rest ih =>
    simp only [insertMerge, insertWithC, ih]
    rfl

theorem mem_insertWithC_key {α : Type} {f : Option α → α → α} {m : AListB α}
    {k : Key} {v : α} :
    ∀ q ∈ insertWithC f m k v, q.1 = k ∨ q.1 ∈ m.map Prod.fst := by
  induction m with
  | nil =>
    intro q hq
    simp [insertWithC] at hq
    simp [hq]
  | cons p rest ih =>
    intro q hq
    simp only [insertWithC] at hq
    by_cases h1 : keyLt k p.1 = true
    · rw [if_pos h1] at hq
      rcases List.mem_cons.mp hq with h | h
      · left; rw [h]
      · right
        rcases List.mem_cons.mp h with h' | h'
        · simp [h']
        · simp
          right
          exact ⟨q.2, h'⟩
    · rw [if_neg h1] at hq
      by_cases h2 : p.1 = k
      · rw [if_pos h2] at hq
        rcases List.mem_cons.mp hq with h | h
        · left; rw [h, h2]
        · right
          simp
          right
          exact ⟨q.2, h⟩
      · rw [if_neg h2] at hq
        rcases List.mem_cons.mp hq with h | h
        · right; simp [h]
        · rcases ih q h with h' | h'
          · left; exact h'
          · right; simp; right; simpa using h'

theorem mem_insertWithC_val {α : Type} {f : Option α → α → α} {m : AListB α}
    {k : Key} {v : α} :
    ∀ q ∈ insertWithC f m k v,
      q ∈ m ∨ q.2 = f none v ∨ ∃ p ∈ m, q.2 = f (some p.2) v := by
  induction m with
  | nil =>
    intro q hq
    simp [insertWithC] at hq
    right; left
    rw [hq]
  | cons p rest ih =>
    intro q hq
    simp only [insertWithC] at hq
    by_cases h1 : keyLt k p.1 = true
    · rw [if_pos h1] at hq
      rcases List.mem_cons.mp hq with h | h
      · right; left; rw [h]
      · left; exact h
    · rw [if_neg h1] at hq
      by_cases h2 : p.1 = k
      · rw [if_pos h2] at hq
        rcases List.mem_cons.mp hq with h | h
        · right; right
          exact ⟨p, List.mem_cons_self p rest, by rw [h]⟩
        · left; exact List.mem_cons_of_mem p h
      · rw [if_neg h2] at hq
        rcases List.mem_cons.mp hq with h | h
        · left; rw [h]; exact List.mem_cons_self p rest
        · rcases ih q h with h' | h' | h'
          · left; exact List.mem_cons_of_mem p h'
          · right; left; exact h'
          · right; right
            obtain ⟨p', hp', he⟩ := h'
            exact ⟨p', List.mem_cons_of_mem p hp', he⟩

theorem SortedK_insertWithC {α : Type} {f : Option α → α → α} {m : AListB α}
    {k : Key} {v : α} (h : SortedK m) : SortedK (insertWithC f m k v) := by
  induction m with
  | nil => simp [insertWithC, SortedK]
  | cons p rest ih =>
    rw [SortedK, List.pairwise_cons] at h
    obtain ⟨hhead, htail⟩ := h
    simp only [insertWithC]
    by_cases h1 : keyLt k p.1 = true
    · rw [if_pos h1]
      rw [SortedK, List.pairwise_cons]
      constructor
      · intro q hq
        rcases List.mem_cons.mp hq with h' | h'
        · rw [h']; exact h1
        · exact keyLt_trans h1 (hhead q h')
      · rw [List.pairwise_cons]
        exact ⟨hhead, htail⟩
    · rw [if_neg h1]
      by_cases h2 : p.1 = k
      · rw [if_pos h2]
        rw [SortedK, List.pairwise_cons]
        exact ⟨fun q hq => by rw [h2] at hhead ⊢; exact hhead q hq, htail⟩
      · rw [if_neg h2]
        rw [SortedK, List.pairwise_cons]
        constructor
        · intro q hq
          rcases mem_insertWithC_key q hq with h' | h'
          · rw [h']
            have hkp : keyLt k p.1 = false := by
              cases hh : keyLt k p.1
              · rfl
              · exact absurd hh h1
            exact keyLt_true_of_false_of_ne hkp (fun he => h2 he.symm)
          · rcases List.mem_map.mp h' with ⟨q', hq', he⟩
            rw [← he]
            exact hhead q' hq'
        · exact ih htail

theorem lookupA_insertWithC_self {α : Type} {f : Option α → α → α} {m : AListB α}
    {k : Key} {v : α} (h : SortedK m) :
    lookupA (insertWithC f m k v) k = some (f (lookupA m k) v) := by
  induction m with
  | nil => simp [insertWithC, lookupA]
  | cons p rest ih =>
    rw [SortedK, List.pairwise_cons] at h
    obtain ⟨hhead, htail⟩ := h
    simp only [insertWithC]
    by_cases h1 : keyLt k p.1 = true
    · rw [if_pos h1]
      have hne : p.1 ≠ k := by
        intro he
        rw [he, keyLt_irrefl] at h1
        exact Bool.false_ne_true h1
      have hrest : lookupA rest k = none :=
        lookupA_eq_none_of_all_lt (fun q hq => keyLt_trans h1 (hhead q hq))
      simp [lookupA, hne, hrest]
    · rw [if_neg h1]
      by_cases h2 : p.1 = k
      · rw [if_pos h2]
        simp only [lookupA]
        rw [if_pos h2, if_pos h2]
      · rw [if_neg h2]
        simp only [lookupA]
        rw [if_neg h2, if_neg h2]
        exact ih htail

theorem lookupA_insertWithC_ne {α : Type} {f : Option α → α → α} {m : AListB α}
    {k k' : Key} {v : α} (hne : k' ≠ k) :
    lookupA (insertWithC f m k v) k' = lookupA m k' := by
  induction m with
  | nil =>
    simp only [insertWithC, lookupA]
    rw [if_neg (fun he => hne he.symm)]
  | cons p rest ih =>
    simp only [insertWithC]
    by_cases h1 : keyLt k p.1 = true
    · rw [if_pos h1]
      simp only [lookupA]
      rw [if_neg (fun he => hne he.symm)]
    · rw [if_neg h1]
      by_cases h2 : p.1 = k
      · rw [if_pos h2]
        simp only [lookupA]
        rw [if_neg (fun he => hne (h2 ▸ he).symm), if_neg (fun he => hne (h2 ▸ he).symm)]
      · rw [if_neg h2]
        simp only [lookupA]
        by_cases h3 : p.1 = k'
        · rw [if_pos h3, if_pos h3]
        · rw [if_neg h3, if_neg h3]
          exact ih

theorem SortedK_insertMerge {m : PooMap} {k : Key} {freqs : PooMapInner}
    (h : SortedK m) : SortedK (insertMerge m k freqs) := by
  rw [insertMerge_eq_insertWithC]
  exact SortedK_insertWithC h

theorem WFOuter_insertMerge {m : PooMap} {k : Key} {freqs : PooMapInner}
    (h : WFOuter m) : WFOuter (insertMerge m k freqs) := by
  constructor
  · exact SortedK_insertMerge h.1
  · intro q hq
    rw [insertMerge_eq_insertWithC] at hq
    rcases mem_insertWithC_val q hq with h' | h' | h'
    · exact h.2 q h'
    · rw [h']
      exact WFInner_mergeInner freqs WFInner_nil
    · obtain ⟨p, hp, he⟩ := h'
      rw [he]
      exact WFInner_mergeInner freqs (h.2 p hp)

theorem SortedK_mergeOuter {a : PooMap} (b : PooMap)
    (ha : SortedK a) : SortedK (mergeOuter a b) := by
  induction b generalizing a with
  | nil => exact ha
  | cons p bs ih => exact ih (SortedK_insertMerge ha)

theorem WFOuter_mergeOuter {a : PooMap} (b : PooMap)
    (ha : WFOuter a) : WFOuter (mergeOuter a b) := by
  induction b generalizing a with
  | nil => exact ha
  | cons p bs ih => exact ih (WFOuter_insertMerge ha)

theorem lookupA_mergeOuter {a b : PooMap} (k : Key)
    (ha : SortedK a) (hb : SortedK b) :
    lookupA (mergeOuter a b) k = combineO (lookupA a k) (lookupA b k) := by
  induction b generalizing a with
  | nil => rfl
  | cons p bs ih =>
    have hstep : mergeOuter a (p :: bs) = mergeOuter (insertMerge a p.1 p.2) bs := rfl
    rw [hstep, ih (SortedK_insertMerge ha)
        (List.Pairwise.sublist (List.sublist_cons_self _ _) hb)]
    by_cases hk : p.1 = k
    · subst hk
      rw [insertMerge_eq_insertWithC, lookupA_insertWithC_self ha]
      have hbs : lookupA bs p.1 = none := lookupA_tail_of_sorted hb
      rw [hbs]
      cases p with
      | mk pk pv => rw [lookupA_head]; rfl
    · rw [insertMerge_eq_insertWithC, lookupA_insertWithC_ne (fun he => hk he.symm)]
      cases p with
      | mk pk pv =>
        simp only [lookupA, if_neg hk]

theorem lookupA_WFInner {m : PooMap} {k : Key} {f : PooMapInner}
    (hm : WFOuter m) (h : lookupA m k = some f) : WFInner f :=
  hm.2 (k, f) (lookupA_mem h)

theorem WFOuter_nil : WFOuter [] := ⟨SortedK_nil, by intro p hp; cases hp⟩

theorem mergeOuter_comm {a b : PooMap} (ha : WFOuter a) (hb : WFOuter b) :
    mergeOuter a b = mergeOuter b a := by
  apply AListB_ext (SortedK_mergeOuter b ha.1) (SortedK_mergeOuter a hb.1)
  intro k
  rw [lookupA_mergeOuter k ha.1 hb.1, lookupA_mergeOuter k hb.1 ha.1]
  cases hla : lookupA a k with
  | none =>
    cases hlb : lookupA b k with
    | none => rfl
    | some fb => simp [combineO, mergeInner_nil_left (lookupA_WFInner hb hlb)]
  | some fa =>
    cases hlb : lookupA b k with
    | none => simp [combineO, mergeInner_nil_left (lookupA_WFInner ha hla)]
    | some fb =>
      simp [combineO,
        mergeInner_comm (lookupA_WFInner ha hla) (lookupA_WFInner hb hlb)]

theorem mergeOuter_assoc {a b c : PooMap}
    (ha : WFOuter a) (hb : WFOuter b) (hc : WFOuter c) :
    mergeOuter (mergeOuter a b) c = mergeOuter a (mergeOuter b c) := by
  apply AListB_ext (SortedK_mergeOuter c (SortedK_mergeOuter b ha.1))
    (SortedK_mergeOuter _ ha.1)
  intro k
  rw [lookupA_mergeOuter k (SortedK_mergeOuter b ha.1) hc.1,
      lookupA_mergeOuter k ha.1 hb.1,
      lookupA_mergeOuter k ha.1 (SortedK_mergeOuter c hb.1),
      lookupA_mergeOuter k hb.1 hc.1]
  have hsa : ∀ x : Option PooMapInner, lookupA a k = x → SortedK (x.getD []) := by
    intro x hx
    cases x with
    | none => exact SortedK_nil
    | some fa => exact (lookupA_WFInner ha hx).1
  cases hla : lookupA a k with
  | none =>
    cases hlb : lookupA b k with
    | none =>
      cases hlc : lookupA c k with
      | none => rfl
      | some fc =>
        simp [combineO, mergeInner_absorb SortedK_nil (lookupA_WFInner hc hlc).1]
    | some fb =>
      cases hlc : lookupA c k with
      | none => rfl
      | some fc =>
        simp [combineO, mergeInner_assoc SortedK_nil
          (lookupA_WFInner hb hlb).1 (lookupA_WFInner hc hlc).1]
  | some fa =>
    cases hlb : lookupA b k with
    | none =>
      cases hlc : lookupA c k with
      | none => rfl
      | some fc =>
        simp [combineO,
          mergeInner_absorb (lookupA_WFInner ha hla).1 (lookupA_WFInner hc hlc).1]
    | some fb =>
      cases hlc : lookupA c k with
      | none => rfl
      | some fc =>
        simp [combineO, mergeInner_assoc (lookupA_WFInner ha hla).1
          (lookupA_WFInner hb hlb).1 (lookupA_WFInner hc hlc).1]

theorem mergeOuter_nil_left {b : PooMap} (hb : WFOuter b) :
    mergeOuter [] b = b := by
  apply AListB_ext (SortedK_mergeOuter b SortedK_nil) hb.1
  intro k
  rw [lookupA_mergeOuter k SortedK_nil hb.1]
  cases hlb : lookupA b k with
  | none => rfl
  | some fb =>
    simp [combineO, lookupA_nil, hlb, mergeInner_nil_left (lookupA_WFInner hb hlb)]

-- ## Batch aggregation: fold/reduce invariance

theorem WFOuter_foldl_stepRec (recs : List RecT) :
    ∀ a : PooMap, WFOuter a → WFOuter (recs.foldl stepRec a) := by
  induction recs with
  | nil => intro a ha; exact ha
  | cons r rs ih => intro a ha; exact ih _ (WFOuter_insertMerge ha)

theorem WFOuter_batchResult (recs : List RecT) : WFOuter (batchResult recs) :=
  WFOuter_foldl_stepRec recs [] WFOuter_nil

theorem insertMerge_absorb {a : PooMap} {k : Key} {f : PooMapInner}
    (ha : WFOuter a) (hf : SortedK f) :
    insertMerge a k (mergeInner [] f) = insertMerge a k f := by
  apply AListB_ext (SortedK_insertMerge ha.1) (SortedK_insertMerge ha.1)
  intro k'
  rw [insertMerge_eq_insertWithC, insertMerge_eq_insertWithC]
  by_cases hk : k' = k
  · subst hk
    have hx : SortedK ((lookupA a k').getD []) := by
      cases hl : lookupA a k' with
      | none => exact SortedK_nil
      | some fa => exact (lookupA_WFInner ha hl).1
    rw [lookupA_insertWithC_self ha.1, lookupA_insertWithC_self ha.1]
    simp [mergeInner_absorb hx hf]
  · rw [lookupA_insertWithC_ne hk, lookupA_insertWithC_ne hk]

theorem stepRec_as_merge {a : PooMap} {r : RecT} (ha : WFOuter a)
    (hr : SortedK r.2) : mergeOuter a (stepRec [] r) = stepRec a r := by
  have h1 : stepRec [] r = [(r.1, mergeInner [] r.2)] := rfl
  have h2 : mergeOuter a [(r.1, mergeInner [] r.2)] =
      insertMerge a r.1 (mergeInner [] r.2) := rfl
  rw [h1, h2]
  exact insertMerge_absorb ha hr

theorem WFOuter_stepRec_nil (r : RecT) : WFOuter (stepRec [] r) :=
  WFOuter_insertMerge WFOuter_nil

theorem foldl_stepRec_merge (ys : List RecT) :
    ∀ a : PooMap, WFOuter a → (∀ r ∈ ys, SortedK r.2) →
      ys.foldl stepRec a = mergeOuter a (batchResult ys) := by
  induction ys with
  | nil => intro a _ _; rfl
  | cons r ys ih =>
    intro a ha hs
    have hr : SortedK r.2 := hs r (List.mem_cons_self r ys)
    have hys : ∀ q ∈ ys, SortedK q.2 := fun q hq => hs q (List.mem_cons_of_mem r hq)
    have hL : (r :: ys).foldl stepRec a = ys.foldl stepRec (stepRec a r) := rfl
    have hB : batchResult (r :: ys) = ys.foldl stepRec (stepRec [] r) := rfl
    rw [hL, hB, ih (stepRec a r) (WFOuter_insertMerge ha) hys,
        ih (stepRec [] r) (WFOuter_stepRec_nil r) hys,
        ← mergeOuter_assoc ha (WFOuter_stepRec_nil r) (WFOuter_batchResult ys),
        stepRec_as_merge ha hr]

theorem batchResult_append (xs ys : List RecT) (hys : ∀ r ∈ ys, SortedK r.2) :
    batchResult (xs ++ ys) = mergeOuter (batchResult xs) (batchResult ys) := by
  have h1 : batchResult (xs ++ ys) = ys.foldl stepRec (batchResult xs) := by
    simp [batchResult, List.foldl_append]
  rw [h1, foldl_stepRec_merge ys (batchResult xs) (WFOuter_batchResult xs) hys]

theorem foldl_mergeOuter_parts (parts : List (List RecT)) :
    ∀ acc : PooMap, WFOuter acc → (∀ r ∈ parts.flatten, SortedK r.2) →
      (parts.map batchResult).foldl mergeOuter acc =
        mergeOuter acc (batchResult parts.flatten) := by
  induction parts with
  | nil => intro acc _ _; rfl
  | cons p ps ih =>
    intro acc hacc hs
    have hps : ∀ r ∈ ps.flatten, SortedK r.2 := by
      intro r hr
      exact hs r (by simp [List.mem_flatten] at hr ⊢; obtain ⟨l, hl, hrl⟩ := hr; exact Or.inr ⟨l, hl, hrl⟩)
    have hL : ((p :: ps).map batchResult).foldl mergeOuter acc =
        (ps.map batchResult).foldl mergeOuter (mergeOuter acc (batchResult p)) := rfl
    rw [hL, ih (mergeOuter acc (batchResult p)) (WFOuter_mergeOuter _ hacc) hps]
    have hJ : (p :: ps).flatten = p ++ ps.flatten := rfl
    rw [hJ, batchResult_append p ps.flatten hps,
        ← mergeOuter_assoc hacc (WFOuter_batchResult p) (WFOuter_batchResult ps.flatten)]

theorem reduceTree_eq (t : RTree) (h : ∀ r ∈ flattenT t, SortedK r.2) :
    reduceTree t = batchResult (flattenT t) := by
  induction t with
  | leaf recs => rfl
  | node l r ihl ihr =>
    have hl : ∀ q ∈ flattenT l, SortedK q.2 := by
      intro q hq
      exact h q (by simp only [flattenT, List.mem_append]; exact Or.inl hq)
    have hr : ∀ q ∈ flattenT r, SortedK q.2 := by
      intro q hq
      exact h q (by simp only [flattenT, List.mem_append]; exact Or.inr hq)
    have hT : flattenT (RTree.node l r) = flattenT l ++ flattenT r := rfl
    rw [reduceTree, ihl hl, ihr hr, hT, batchResult_append _ _ hr]

theorem dropWhile_eq_self_of_none {p : Char → Bool} {l : List Char}
    (h : ∀ c ∈ l, p c = false) : l.dropWhile p = l := by
  cases l with
  | nil => rfl
  | cons c rest =>
    rw [List.dropWhile_cons, h c (List.mem_cons_self c rest)]
    simp

theorem trimWs_eq_self {ws : Char → Bool} {w : List Char}
    (h : ∀ c ∈ w, ws c = false) : trimWs ws w = w := by
  rw [trimWs, dropWhile_eq_self_of_none h,
      dropWhile_eq_self_of_none (fun c hc => h c (List.mem_reverse.mp hc)),
      List.reverse_reverse]

theorem splitWsAux_tokens {ws : Char → Bool} :
    ∀ (s acc : List Char), (∀ c ∈ acc, ws c = false) →
      ∀ w ∈ splitWsAux ws s acc, w ≠ [] ∧ ∀ c ∈ w, ws c = false := by
  intro s
  induction s with
  | nil =>
    intro acc hacc w hw
    simp only [splitWsAux] at hw
    by_cases he : acc.isEmpty
    · rw [if_pos he] at hw
      cases hw
    · rw [if_neg he] at hw
      rcases List.mem_cons.mp hw with h' | h'
      · subst h'
        constructor
        · intro hrev
          rw [List.reverse_eq_nil_iff] at hrev
          rw [hrev] at he
          exact he rfl
        · intro c hc
          exact hacc c (List.mem_reverse.mp hc)
      · cases h'
  | cons c rest ih =>
    intro acc hacc w hw
    simp only [splitWsAux] at hw
    by_cases hc : ws c = true
    · rw [if_pos hc] at hw
      by_cases he : acc.isEmpty
      · rw [if_pos he] at hw
        exact ih [] (by intro x hx; cases hx) w hw
      · rw [if_neg he] at hw
        rcases List.mem_cons.mp hw with h' | h'
        · subst h'
          constructor
          · intro hrev
            rw [List.reverse_eq_nil_iff] at hrev
            rw [hrev] at he
            exact he rfl
          · intro x hx
            exact hacc x (List.mem_reverse.mp hx)
        · exact ih [] (by intro x hx; cases hx) w h'
    · rw [if_neg hc] at hw
      refine ih (c :: acc) ?_ w hw
      intro x hx
      rcases List.mem_cons.mp hx with h' | h'
      · rw [h']
        exact Bool.eq_false_iff.mpr hc
      · exact hacc x h'

theorem splitWs_tokens {ws : Char → Bool} {s : List Char} :
    ∀ w ∈ splitWs ws s, w ≠ [] ∧ ∀ c ∈ w, ws c = false :=
  splitWsAux_tokens s [] (by intro x hx; cases hx)

theorem lookupA_countFold (ks : List Key) :
    ∀ (m : PooMapInner) (k : Key), SortedK m →
      lookupA (ks.foldl (fun acc k' => insertAdd acc k' 1) m) k =
        if ks.count k = 0 then lookupA m k
        else some (wadd ((lookupA m k).getD 0) (ks.count k)) := by
  induction ks with
  | nil =>
    intro m k _
    simp [List.count_nil]
  | cons k' ks ih =>
    intro m k hm
    have hstep : ((k' :: ks).foldl (fun acc x => insertAdd acc x 1) m) =
        (ks.foldl (fun acc x => insertAdd acc x 1) (insertAdd m k' 1)) := rfl
    rw [hstep, ih (insertAdd m k' 1) k (SortedK_insertAdd hm)]
    by_cases hk : k = k'
    · subst hk
      rw [lookupA_insertAdd_self hm]
      rw [List.count_cons_self]
      by_cases h0 : ks.count k = 0
      · rw [if_pos h0]
        simp [h0]
      · rw [if_neg h0]
        rw [if_neg (by omega)]
        simp only [Option.getD_some]
        rw [wadd_assoc, wadd_comm 1 (List.count k ks),
            show wadd (List.count k ks) 1 = (List.count k ks + 1) % U64M from rfl,
            wadd_mod_right]
    · rw [lookupA_insertAdd_ne hk]
      rw [List.count_cons_of_ne hk]

theorem SortedK_countFold (ks : List Key) :
    ∀ m : PooMapInner, SortedK m →
      SortedK (ks.foldl (fun acc k' => insertAdd acc k' 1) m) := by
  induction ks with
  | nil => intro m hm; exact hm
  | cons k' ks ih => intro m hm; exact ih _ (SortedK_insertAdd hm)

theorem VOK_countFold (ks : List Key) :
    ∀ m : PooMapInner, VOK m →
      VOK (ks.foldl (fun acc k' => insertAdd acc k' 1) m) := by
  induction ks with
  | nil => intro m hm; exact hm
  | cons k' ks ih => intro m hm; exact ih _ (VOK_insertAdd hm)

theorem process_alt_tokens_eq (T : CharTables) (text : List Char) :
    process_alt T text =
      ((specTokens T text).map utf8).foldl
        (fun acc k' => insertAdd acc k' 1) [] := by
  rw [process_alt, specTokens]
  have h : ∀ (toks : List (List Char)) (m : PooMapInner),
      (∀ w ∈ toks, ∀ c ∈ w, T.isWs c = false) →
      toks.foldl (fun acc word => insertAdd acc (utf8 (trimWs T.isWs word)) 1) m =
        (toks.map utf8).foldl (fun acc k' => insertAdd acc k' 1) m := by
    intro toks
    induction toks with
    | nil => intro m _; rfl
    | cons w ws ih =>
      intro m hws
      have hw : trimWs T.isWs w = w :=
        trimWs_eq_self (hws w (List.mem_cons_self w ws))
      have h1 : (w :: ws).foldl
          (fun acc word => insertAdd acc (utf8 (trimWs T.isWs word)) 1) m =
          ws.foldl (fun acc word => insertAdd acc (utf8 (trimWs T.isWs word)) 1)
            (insertAdd m (utf8 (trimWs T.isWs w)) 1) := rfl
      rw [h1, hw, ih _ (fun x hx => hws x (List.mem_cons_of_mem w hx))]
      rfl
  exact h _ [] (fun w hw => (splitWs_tokens w hw).2)

theorem WFInner_process_alt (T : CharTables) (text : List Char) :
    WFInner (process_alt T text) := by
  rw [process_alt_tokens_eq]
  exact ⟨SortedK_countFold _ [] SortedK_nil,
    VOK_countFold _ [] (by intro p hp; cases hp)⟩

theorem lookupA_process_alt (T : CharTables) (text : List Char) (k : Key) :
    lookupA (process_alt T text) k =
      if ((specTokens T text).map utf8).count k = 0 then none
      else some (((specTokens T text).map utf8).count k % U64M) := by
  rw [process_alt_tokens_eq, lookupA_countFold _ [] k SortedK_nil]
  by_cases h0 : ((specTokens T text).map utf8).count k = 0
  · rw [if_pos h0, if_pos h0]
    rfl
  · rw [if_neg h0, if_neg h0]
    rw [lookupA_nil]
    simp [wadd_zero_left]

theorem evOK_chunk {e : SrcEv} (h : evOK e) :
    ∃ bs, e = SrcEv.chunk bs ∧ bs ≠ [] := by
  cases e with
  | chunk bs => exact ⟨bs, rfl, h⟩
  | ioerr b => cases h

theorem memchr_lt_length {delim : Nat} {bs : List Nat} {i : Nat}
    (h : memchr delim bs = some i) : i < bs.length := by
  induction bs generalizing i with
  | nil => simp [memchr] at h
  | cons b rest ih =>
    simp only [memchr] at h
    by_cases hb : b = delim
    · rw [if_pos hb] at h
      cases h
      simp
    · rw [if_neg hb] at h
      cases hr : memchr delim rest with
      | none => rw [hr] at h; cases h
      | some j =>
        rw [hr] at h
        simp at h
        have := ih hr
        simp [List.length_cons]
        omega

theorem memchr_append_left {delim : Nat} {bs ys : List Nat} {i : Nat}
    (h : memchr delim bs = some i) : memchr delim (bs ++ ys) = some i := by
  induction bs generalizing i with
  | nil => simp [memchr] at h
  | cons b rest ih =>
    rw [List.cons_append]
    simp only [memchr] at h ⊢
    by_cases hb : b = delim
    · rw [if_pos hb] at h ⊢
      exact h
    · rw [if_neg hb] at h ⊢
      cases hr : memchr delim rest with
      | none => rw [hr] at h; cases h
      | some j =>
        rw [hr] at h
        rw [ih hr]
        exact h

theorem memchr_append_none {delim : Nat} {bs ys : List Nat}
    (h : memchr delim bs = none) :
    memchr delim (bs ++ ys) = (memchr delim ys).map (· + bs.length) := by
  induction bs with
  | nil =>
    simp only [List.nil_append, List.length_nil]
    cases memchr delim ys <;> simp
  | cons b rest ih =>
    rw [List.cons_append]
    simp only [memchr] at h ⊢
    by_cases hb : b = delim
    · rw [if_pos hb] at h
      cases h
    · rw [if_neg hb] at h ⊢
      cases hr : memchr delim rest with
      | none =>
        rw [ih hr]
        cases memchr delim ys
        · simp
        · simp
          omega
      | some j => rw [hr] at h; cases h

theorem consumedLen_eq_zero_iff {delim : Nat} {flat : List Nat} :
    consumedLen delim flat = 0 ↔ flat = [] := by
  cases flat with
  | nil => simp [consumedLen, memchr]
  | cons b rest =>
    simp only [consumedLen, memchr]
    by_cases hb : b = delim
    · rw [if_pos hb]
      simp
    · rw [if_neg hb]
      cases memchr delim rest <;> simp

theorem read_until_spec_chunks {delim : Nat} {src : Src} (h : chunksOnly src) :
    ∀ (buf : List Nat) (readn : Nat),
      (read_until delim src buf readn).1 =
        Except.ok (readn + consumedLen delim (flatSrc src),
          buf ++ (flatSrc src).take (consumedLen delim (flatSrc src))) := by
  induction src with
  | nil =>
    intro buf readn
    simp [read_until, flatSrc, consumedLen, memchr]
  | cons e rest ih =>
    intro buf readn
    obtain ⟨bs, he, hbs⟩ := evOK_chunk (h e (List.mem_cons_self e rest))
    subst he
    have hrest : chunksOnly rest := fun q hq => h q (List.mem_cons_of_mem _ hq)
    have hflat : flatSrc (SrcEv.chunk bs :: rest) = bs ++ flatSrc rest := rfl
    rw [hflat]
    cases hm : memchr delim bs with
    | some i =>
      have hL : (read_until delim (SrcEv.chunk bs :: rest) buf readn).1 =
          Except.ok (readn + (i + 1), buf ++ bs.take (i + 1)) := by
        simp [read_until, hm]
      rw [hL]
      have hc : consumedLen delim (bs ++ flatSrc rest) = i + 1 := by
        simp [consumedLen, memchr_append_left hm]
      rw [hc, List.take_append_of_le_length (by
        have := memchr_lt_length hm
        omega)]
    | none =>
      have hne : bs.isEmpty = false := by
        cases bs with
        | nil => exact absurd rfl hbs
        | cons x xs => rfl
      have hL : read_until delim (SrcEv.chunk bs :: rest) buf readn =
          read_until delim rest (buf ++ bs) (readn + bs.length) := by
        simp [read_until, hm, hne]
      rw [hL, ih hrest (buf ++ bs) (readn + bs.length)]
      have hc : consumedLen delim (bs ++ flatSrc rest) =
          bs.length + consumedLen delim (flatSrc rest) := by
        simp only [consumedLen, memchr_append_none hm]
        cases memchr delim (flatSrc rest) with
        | none => simp
        | some j => simp; omega
      rw [hc, List.take_append_eq_append_take,
          List.take_of_length_le (Nat.le_add_right _ _),
          Nat.add_sub_cancel_left, List.append_assoc, Nat.add_assoc]

theorem read_until_skip_interrupted (delim : Nat) (src : Src) (buf : List Nat)
    (readn : Nat) :
    read_until delim (SrcEv.ioerr true :: src) buf readn =
      read_until delim src buf readn := rfl

theorem read_until_fatal (delim : Nat) (src : Src) (buf : List Nat) (readn : Nat) :
    read_until delim (SrcEv.ioerr false :: src) buf readn =
      (Except.error (), src) := rfl

/-- Claim C7: `read_until` never stalls — with one unit of fuel per loop
iteration, `src.length + 1` units always suffice for the fuelled loop to
return (each iteration either consumes a source event and at least one byte,
finds the delimiter, returns an error, or observes an empty buffer and
returns end-of-input), and the result is `read_until`'s. -/
theorem read_untilF_agrees (delim : Nat) :
    ∀ (src : Src) (buf : List Nat) (readn : Nat),
      read_untilF delim (src.length + 1) src buf readn =
        some (read_until delim src buf readn) := by
  intro src
  induction src with
  | nil => intro buf readn; rfl
  | cons e rest ih =>
    intro buf readn
    cases e with
    | chunk bs =>
      show read_untilF delim (rest.length + 1 + 1) (SrcEv.chunk bs :: rest) buf readn = _
      cases hm : memchr delim bs with
      | some i => simp [read_untilF, read_until, hm]
      | none =>
        cases hbs : bs.isEmpty with
        | true => simp [read_untilF, read_until, hm, hbs]
        | false =>
          have h1 : read_untilF delim (rest.length + 1 + 1) (SrcEv.chunk bs :: rest) buf readn =
              read_untilF delim (rest.length + 1) rest (buf ++ bs) (readn + bs.length) := by
            simp [read_untilF, hm, hbs]
          have h2 : read_until delim (SrcEv.chunk bs :: rest) buf readn =
              read_until delim rest (buf ++ bs) (readn + bs.length) := by
            simp [read_until, hm, hbs]
          rw [h1, h2, ih]
    | ioerr b =>
      cases b with
      | true =>
        show read_untilF delim (rest.length + 1 + 1) (SrcEv.ioerr true :: rest) buf readn = _
        have h1 : read_untilF delim (rest.length + 1 + 1) (SrcEv.ioerr true :: rest) buf readn =
            read_untilF delim (rest.length + 1) rest buf readn := rfl
        rw [h1, ih, read_until_skip_interrupted]
      | false => rfl

theorem processB_progress :
    ∀ (fuel : Nat) (lines : List LineEv) (e : Nat) (cs cs' : List RecT)
      (e' : Nat) (rest : List LineEv),
      processB fuel lines e cs = BOut.ingest cs' e' rest →
      e ≤ e' ∧ rest.length ≤ lines.length ∧
        (0 < fuel → (rest.length < lines.length ∨ (e < e' ∧ e' ≤ 10))) := by
  intro fuel
  induction fuel with
  | zero =>
    intro lines e cs cs' e' rest h
    simp only [processB] at h
    cases h
    exact ⟨Nat.le_refl e, Nat.le_refl _, fun h0 => absurd h0 (Nat.lt_irrefl 0)⟩
  | succ f ih =>
    intro lines e cs cs' e' rest h
    cases lines with
    | nil =>
      simp only [processB] at h
      by_cases he : e + 1 > 10
      · rw [if_pos he] at h; cases h
      · rw [if_neg he] at h
        cases h
        exact ⟨Nat.le_succ e, Nat.le_refl _, fun _ => Or.inr ⟨Nat.lt_succ_self e, by omega⟩⟩
    | cons ev rest0 =>
      cases ev with
      | ioerr => simp only [processB] at h; cases h
      | emptyLine =>
        simp only [processB] at h
        by_cases he : e + 1 > 10
        · rw [if_pos he] at h; cases h
        · rw [if_neg he] at h
          cases h
          exact ⟨Nat.le_succ e, by simp, fun _ => Or.inl (by simp)⟩
      | badLine =>
        simp only [processB] at h
        by_cases he : e + 1 > 10
        · rw [if_pos he] at h; cases h
        · rw [if_neg he] at h
          obtain ⟨h1, h2, _⟩ := ih rest0 (e + 1) cs cs' e' rest h
          refine ⟨by omega, by simp; omega, fun _ => Or.inl ?_⟩
          simp
          omega
      | goodLine a w =>
        simp only [processB] at h
        obtain ⟨h1, h2, _⟩ := ih rest0 e (cs ++ [(a, w)]) cs' e' rest h
        refine ⟨h1, by simp; omega, fun _ => Or.inl ?_⟩
        simp
        omega

theorem runLoopF_total :
    ∀ (n : Nat) (lines : List LineEv) (e : Nat) (corpus : PooMap),
      lines.length + (11 - e) < n →
      ∃ r, runLoopF n lines e corpus = some r := by
  intro n
  induction n with
  | zero => intro lines e corpus h; omega
  | succ n ih =>
    intro lines e corpus h
    cases hp : processB per_iter lines e [] with
    | abort e' rest =>
      exact ⟨(corpus, rest), by simp [runLoopF, hp]⟩
    | ingest cs e' rest =>
      obtain ⟨h1, h2, h3⟩ := processB_progress per_iter lines e [] cs e' rest hp
      have hfuel : (0 : Nat) < per_iter := by decide
      rcases h3 hfuel with hlt | ⟨hee, he10⟩
      · obtain ⟨r, hr⟩ := ih rest e' (mergeOuter corpus (batchResult cs)) (by omega)
        exact ⟨r, by simp [runLoopF, hp, hr]⟩
      · obtain ⟨r, hr⟩ := ih rest e' (mergeOuter corpus (batchResult cs)) (by omega)
        exact ⟨r, by simp [runLoopF, hp, hr]⟩

theorem runReading_total (lines : List LineEv) :
    ∃ r, runReading lines = some r :=
  runLoopF_total (lines.length + 12) lines 0 [] (by omega)

theorem processB_goods :
    ∀ (recs : List RecT) (fuel : Nat) (rest : List LineEv) (e : Nat)
      (cs : List RecT), recs.length ≤ fuel →
      processB fuel (recs.map toGood ++ rest) e cs =
        processB (fuel - recs.length) rest e (cs ++ recs) := by
  intro recs
  induction recs with
  | nil => intro fuel rest e cs _; simp
  | cons r rs ih =>
    intro fuel rest e cs hlen
    cases fuel with
    | zero => simp at hlen
    | succ f =>
      have h1 : (r :: rs).map toGood ++ rest =
          LineEv.goodLine r.1 r.2 :: (rs.map toGood ++ rest) := rfl
      rw [h1]
      have h2 : processB (f + 1) (LineEv.goodLine r.1 r.2 :: (rs.map toGood ++ rest)) e cs =
          processB f (rs.map toGood ++ rest) e (cs ++ [(r.1, r.2)]) := rfl
      rw [h2, ih f rest e (cs ++ [(r.1, r.2)]) (by simp only [List.length_cons] at hlen; omega)]
      have h3 : f - rs.length = f + 1 - (r :: rs).length := by simp
      have h4 : cs ++ [(r.1, r.2)] ++ rs = cs ++ r :: rs := by simp
      rw [h3, h4]

theorem processB_bads :
    ∀ (m fuel e : Nat) (rest : List LineEv) (cs : List RecT),
      e ≤ 10 → 11 - e ≤ m → m ≤ fuel →
      processB fuel (List.replicate m LineEv.badLine ++ rest) e cs =
        BOut.abort 11 (List.replicate (m - (11 - e)) LineEv.badLine ++ rest) := by
  intro m
  induction m with
  | zero => intro fuel e rest cs he hm _; omega
  | succ m ih =>
    intro fuel e rest cs he hm hfuel
    cases fuel with
    | zero => omega
    | succ f =>
      have h1 : List.replicate (m + 1) LineEv.badLine ++ rest =
          LineEv.badLine :: (List.replicate m LineEv.badLine ++ rest) := rfl
      rw [h1]
      by_cases h10 : e + 1 > 10
      · have h2 : processB (f + 1)
            (LineEv.badLine :: (List.replicate m LineEv.badLine ++ rest)) e cs =
            BOut.abort (e + 1) (List.replicate m LineEv.badLine ++ rest) := by
          simp [processB, h10]
        rw [h2]
        have he1 : e + 1 = 11 := by omega
        have hc : m = m + 1 - (11 - e) := by omega
        rw [he1, ← hc]
      · have h2 : processB (f + 1)
            (LineEv.badLine :: (List.replicate m LineEv.badLine ++ rest)) e cs =
            processB f (List.replicate m LineEv.badLine ++ rest) (e + 1) cs := by
          simp [processB, h10]
        rw [h2, ih f (e + 1) rest cs (by omega) (by omega) (by omega)]
        have hc : m - (11 - (e + 1)) = m + 1 - (11 - e) := by omega
        rw [hc]

theorem runLoopF_goodBatches :
    ∀ (batches : List (List RecT)) (n : Nat) (lines' : List LineEv)
      (corpus : PooMap),
      (∀ b ∈ batches, b.length = per_iter) → batches.length < n →
      runLoopF n (batches.flatten.map toGood ++ lines') 0 corpus =
        runLoopF (n - batches.length) lines' 0
          (batches.foldl (fun c b => mergeOuter c (batchResult b)) corpus) := by
  intro batches
  induction batches with
  | nil => intro n lines' corpus _ _; simp
  | cons b bs ih =>
    intro n lines' corpus hb hn
    cases n with
    | zero => simp at hn
    | succ n =>
      have hflat : (b :: bs).flatten.map toGood ++ lines' =
          b.map toGood ++ (bs.flatten.map toGood ++ lines') := by
        simp [List.flatten_cons, List.map_append, List.append_assoc]
      rw [hflat]
      have hblen : b.length = per_iter := hb b (List.mem_cons_self b bs)
      have hproc : processB per_iter (b.map toGood ++ (bs.flatten.map toGood ++ lines')) 0 [] =
          BOut.ingest b 0 (bs.flatten.map toGood ++ lines') := by
        rw [processB_goods b per_iter _ 0 [] (le_of_eq hblen), hblen]
        simp [processB]
      have hstep : runLoopF (n + 1)
          (b.map toGood ++ (bs.flatten.map toGood ++ lines')) 0 corpus =
          runLoopF n (bs.flatten.map toGood ++ lines') 0
            (mergeOuter corpus (batchResult b)) := by
        simp only [runLoopF]
        rw [hproc]
      rw [hstep, ih n lines' (mergeOuter corpus (batchResult b))
          (fun q hq => hb q (List.mem_cons_of_mem b hq))
          (by simp only [List.length_cons] at hn; omega)]
      have hn' : n - bs.length = n + 1 - (b :: bs).length := by
        simp only [List.length_cons]
        omega
      rw [hn']
      rfl

theorem batches_length_le_flatten {batches : List (List RecT)}
    (hb : ∀ b ∈ batches, b.length = per_iter) :
    batches.length ≤ batches.flatten.length := by
  induction batches with
  | nil => simp
  | cons b bs ih =>
    have hblen : b.length = per_iter := hb b (List.mem_cons_self b bs)
    have h1 : bs.length ≤ bs.flatten.length :=
      ih (fun q hq => hb q (List.mem_cons_of_mem b hq))
    simp only [List.length_cons, List.flatten_cons, List.length_append]
    have : (1 : Nat) ≤ per_iter := by decide
    omega

theorem foldl_merge_batches (batches : List (List RecT))
    (hsorted : ∀ r ∈ batches.flatten, SortedK r.2) :
    batches.foldl (fun c b => mergeOuter c (batchResult b)) [] =
      batchResult batches.flatten := by
  have h1 : batches.foldl (fun c b => mergeOuter c (batchResult b)) [] =
      (batches.map batchResult).foldl mergeOuter [] := by
    rw [List.foldl_map]
  rw [h1, foldl_mergeOuter_parts batches [] WFOuter_nil hsorted,
      mergeOuter_nil_left (WFOuter_batchResult batches.flatten)]

/-- Claim C1 (amended): for a file holding some number of complete
10000-record batches of valid records, then `recsB` further valid records
and more than the error budget (`m ≥ 11`) of malformed lines within the
next batch, the corpus `run_for_file` hands to serialization is the
two-level sum over exactly the valid records of the *completed* batches:
the valid records of the batch in which the budget is exceeded (`recsB`)
are discarded, because `break 'a` skips the `ti.ingest` call for the
in-flight batch; and nothing past the 11th malformed line is read. -/
theorem runReading_errorBudget (batches : List (List RecT)) (recsB : List RecT)
    (m : Nat) (tail : List LineEv)
    (hb : ∀ b ∈ batches, b.length = per_iter)
    (hsorted : ∀ r ∈ batches.flatten, SortedK r.2)
    (hm : 11 ≤ m) (hcap : recsB.length + m ≤ per_iter) :
    runReading ((batches.flatten ++ recsB).map toGood
        ++ List.replicate m LineEv.badLine ++ tail) =
      some (batchResult batches.flatten,
        List.replicate (m - 11) LineEv.badLine ++ tail) := by
  set lines' : List LineEv :=
    recsB.map toGood ++ (List.replicate m LineEv.badLine ++ tail) with hl'
  have hsplit : (batches.flatten ++ recsB).map toGood
      ++ List.replicate m LineEv.badLine ++ tail =
      batches.flatten.map toGood ++ lines' := by
    simp [hl', List.map_append, List.append_assoc]
  rw [runReading, hsplit]
  set N : Nat := (batches.flatten.map toGood ++ lines').length + 12 with hN
  have hq : batches.length < N := by
    have h1 := batches_length_le_flatten hb
    have h2 : (batches.flatten.map toGood ++ lines').length =
        batches.flatten.length + lines'.length := by
      rw [List.length_append, List.length_map]
    omega
  rw [runLoopF_goodBatches batches N lines' [] hb hq]
  obtain ⟨n', hn'⟩ : ∃ n', N - batches.length = n' + 1 := by
    refine ⟨N - batches.length - 1, ?_⟩
    omega
  rw [hn']
  have hproc : processB per_iter lines' 0 [] =
      BOut.abort 11 (List.replicate (m - 11) LineEv.badLine ++ tail) := by
    rw [hl', processB_goods recsB per_iter _ 0 [] (by omega)]
    have h1 : ([] : List RecT) ++ recsB = recsB := rfl
    rw [h1, processB_bads m (per_iter - recsB.length) 0
        (tail) recsB (by omega) (by omega) (by omega)]
  have hstep : runLoopF (n' + 1) lines' 0
      (batches.foldl (fun c b => mergeOuter c (batchResult b)) []) =
      some (batches.foldl (fun c b => mergeOuter c (batchResult b)) [],
        List.replicate (m - 11) LineEv.badLine ++ tail) := by
    simp only [runLoopF]
    rw [hproc]
  rw [hstep, foldl_merge_batches batches hsorted]

theorem readU64_u64le {n : Nat} (h : n < U64M) (rest : List Nat) :
    readU64 (u64le n ++ rest) = Except.ok (n, rest) := by
  simp only [u64le, List.cons_append, List.nil_append, readU64]
  congr 2
  have h64 : n < 256 ^ 8 := by
    have : U64M = 256 ^ 8 := by decide
    omega
  omega

theorem readBytes_exact (key rest : List Nat) :
    readBytes key.length (key ++ rest) = Except.ok (key, rest) := by
  rw [readBytes, if_pos (by simp), List.take_left, List.drop_left]

theorem decodeInnerEntries_round (m : PooMapInner)
    (h : ∀ q ∈ m, q.1.length < U64M ∧ q.2 < U64M) (rest : List Nat) :
    decodeInnerEntries m.length
        ((m.map (fun p => u64le p.1.length ++ p.1 ++ u64le p.2)).flatten ++ rest) =
      Except.ok (m, rest) := by
  induction m with
  | nil => rfl
  | cons q qs ih =>
    obtain ⟨hl, hc⟩ := h q (List.mem_cons_self q qs)
    have hqs : ∀ r ∈ qs, r.1.length < U64M ∧ r.2 < U64M :=
      fun r hr => h r (List.mem_cons_of_mem q hr)
    have hshape : ((q :: qs).map (fun p => u64le p.1.length ++ p.1 ++ u64le p.2)).flatten ++ rest =
        u64le q.1.length ++ (q.1 ++ (u64le q.2 ++
          ((qs.map (fun p => u64le p.1.length ++ p.1 ++ u64le p.2)).flatten ++ rest))) := by
      simp [List.append_assoc]
    rw [List.length_cons, hshape]
    show (do
      let (wl, bs) ← readU64 (u64le q.1.length ++ (q.1 ++ (u64le q.2 ++
        ((qs.map (fun p => u64le p.1.length ++ p.1 ++ u64le p.2)).flatten ++ rest))))
      let (w, bs) ← readBytes wl bs
      let (cnt, bs) ← readU64 bs
      let (rest', bs) ← decodeInnerEntries qs.length bs
      pure ((w, cnt) :: rest', bs)) = Except.ok (q :: qs, rest)
    rw [readU64_u64le hl]
    show (do
      let (w, bs) ← readBytes q.1.length (q.1 ++ (u64le q.2 ++
        ((qs.map (fun p => u64le p.1.length ++ p.1 ++ u64le p.2)).flatten ++ rest)))
      let (cnt, bs) ← readU64 bs
      let (rest', bs) ← decodeInnerEntries qs.length bs
      pure ((w, cnt) :: rest', bs)) = Except.ok (q :: qs, rest)
    rw [readBytes_exact]
    show (do
      let (cnt, bs) ← readU64 (u64le q.2 ++
        ((qs.map (fun p => u64le p.1.length ++ p.1 ++ u64le p.2)).flatten ++ rest))
      let (rest', bs) ← decodeInnerEntries qs.length bs
      pure ((q.1, cnt) :: rest', bs)) = Except.ok (q :: qs, rest)
    rw [readU64_u64le hc]
    show (do
      let (rest', bs) ← decodeInnerEntries qs.length
        ((qs.map (fun p => u64le p.1.length ++ p.1 ++ u64le p.2)).flatten ++ rest)
      pure ((q.1, q.2) :: rest', bs)) = Except.ok (q :: qs, rest)
    rw [ih hqs]
    rfl

theorem decodeOuterEntries_round (c : PooMap)
    (h : ∀ p ∈ c, p.1.length < U64M ∧ p.2.length < U64M ∧
      ∀ q ∈ p.2, q.1.length < U64M ∧ q.2 < U64M) (rest : List Nat) :
    decodeOuterEntries c.length
        ((c.map (fun p => u64le p.1.length ++ p.1 ++ encodeInner p.2)).flatten ++ rest) =
      Except.ok (c, rest) := by
  induction c with
  | nil => rfl
  | cons p ps ih =>
    obtain ⟨hal, hil, hin⟩ := h p (List.mem_cons_self p ps)
    have hps : ∀ r ∈ ps, r.1.length < U64M ∧ r.2.length < U64M ∧
        ∀ q ∈ r.2, q.1.length < U64M ∧ q.2 < U64M :=
      fun r hr => h r (List.mem_cons_of_mem p hr)
    have hshape : ((p :: ps).map (fun r => u64le r.1.length ++ r.1 ++ encodeInner r.2)).flatten
        ++ rest =
        u64le p.1.length ++ (p.1 ++ (u64le p.2.length ++
          ((p.2.map (fun q => u64le q.1.length ++ q.1 ++ u64le q.2)).flatten ++
            ((ps.map (fun r => u64le r.1.length ++ r.1 ++ encodeInner r.2)).flatten ++ rest)))) := by
      simp [encodeInner, List.append_assoc]
    rw [List.length_cons, hshape]
    show (do
      let (al, bs) ← readU64 (u64le p.1.length ++ (p.1 ++ (u64le p.2.length ++
        ((p.2.map (fun q => u64le q.1.length ++ q.1 ++ u64le q.2)).flatten ++
          ((ps.map (fun r => u64le r.1.length ++ r.1 ++ encodeInner r.2)).flatten ++ rest)))))
      let (a, bs) ← readBytes al bs
      let (wc, bs) ← readU64 bs
      let (inner, bs) ← decodeInnerEntries wc bs
      let (rest', bs) ← decodeOuterEntries ps.length bs
      pure ((a, inner) :: rest', bs)) = Except.ok (p :: ps, rest)
    rw [readU64_u64le hal]
    show (do
      let (a, bs) ← readBytes p.1.length (p.1 ++ (u64le p.2.length ++
        ((p.2.map (fun q => u64le q.1.length ++ q.1 ++ u64le q.2)).flatten ++
          ((ps.map (fun r => u64le r.1.length ++ r.1 ++ encodeInner r.2)).flatten ++ rest))))
      let (wc, bs) ← readU64 bs
      let (inner, bs) ← decodeInnerEntries wc bs
      let (rest', bs) ← decodeOuterEntries ps.length bs
      pure ((a, inner) :: rest', bs)) = Except.ok (p :: ps, rest)
    rw [readBytes_exact]
    show (do
      let (wc, bs) ← readU64 (u64le p.2.length ++
        ((p.2.map (fun q => u64le q.1.length ++ q.1 ++ u64le q.2)).flatten ++
          ((ps.map (fun r => u64le r.1.length ++ r.1 ++ encodeInner r.2)).flatten ++ rest)))
      let (inner, bs) ← decodeInnerEntries wc bs
      let (rest', bs) ← decodeOuterEntries ps.length bs
      pure ((p.1, inner) :: rest', bs)) = Except.ok (p :: ps, rest)
    rw [readU64_u64le hil]
    show (do
      let (inner, bs) ← decodeInnerEntries p.2.length
        ((p.2.map (fun q => u64le q.1.length ++ q.1 ++ u64le q.2)).flatten ++
          ((ps.map (fun r => u64le r.1.length ++ r.1 ++ encodeInner r.2)).flatten ++ rest))
      let (rest', bs) ← decodeOuterEntries ps.length bs
      pure ((p.1, inner) :: rest', bs)) = Except.ok (p :: ps, rest)
    rw [decodeInnerEntries_round p.2 hin]
    show (do
      let (rest', bs) ← decodeOuterEntries ps.length
        ((ps.map (fun r => u64le r.1.length ++ r.1 ++ encodeInner r.2)).flatten ++ rest)
      pure ((p.1, p.2) :: rest', bs)) = Except.ok (p :: ps, rest)
    rw [ih hps]
    rfl

/-- Claim C4: decoding the byte stream `serialize_with_writer` produces
returns the original Corpus, for every Corpus whose lengths and counts fit
in `u64` (they always do in the Rust code) — including the empty Corpus and
keys that are not valid text. The codec is modelled from spec §4.5, its
source file being absent from the repository snapshot. -/
theorem deserialize_serialize (c : PooMap) (hb : CorpusBounded c) :
    deserialize (serialize_with_writer c) = Except.ok (c, []) := by
  obtain ⟨hlen, hentries⟩ := hb
  rw [serialize_with_writer, deserialize]
  show (do
    let (n, bs) ← readU64 (u64le c.length ++
      (c.map (fun p => u64le p.1.length ++ p.1 ++ encodeInner p.2)).flatten)
    decodeOuterEntries n bs) = Except.ok (c, [])
  have hx : (c.map (fun p => u64le p.1.length ++ p.1 ++ encodeInner p.2)).flatten =
      (c.map (fun p => u64le p.1.length ++ p.1 ++ encodeInner p.2)).flatten ++ [] := by
    simp
  rw [hx, ← List.append_assoc]
  rw [List.append_assoc, readU64_u64le hlen]
  exact decodeOuterEntries_round c hentries []

theorem mem_insertSorted {k x : Key} {l : List Key} :
    x ∈ insertSorted k l ↔ x = k ∨ x ∈ l := by
  induction l with
  | nil => simp [insertSorted]
  | cons y ys ih =>
    simp only [insertSorted]
    by_cases h : keyLt k y = true
    · rw [if_pos h]
      simp [List.mem_cons]
    · rw [if_neg h]
      simp only [List.mem_cons, ih]
      tauto

theorem mem_sortKeys {x : Key} {l : List Key} : x ∈ sortKeys l ↔ x ∈ l := by
  induction l with
  | nil => simp [sortKeys]
  | cons y ys ih =>
    show x ∈ insertSorted y (sortKeys ys) ↔ _
    rw [mem_insertSorted, ih]
    simp [List.mem_cons]

theorem afterLastDot_append (xs : List Nat) {ys : List Nat} {e : List Nat}
    (h : afterLastDot ys = some e) : afterLastDot (xs ++ ys) = some e := by
  induction xs with
  | nil => simpa using h
  | cons c rest ih =>
    rw [List.cons_append]
    show (match afterLastDot (rest ++ ys) with
      | some e' => some e'
      | none => if c = 46 then some (rest ++ ys) else none) = some e
    rw [ih]

theorem extension_users_freqs (f : Key) :
    extension (f ++ str2key ".users.freqs") = some (str2key "freqs") := by
  have hsuffix : afterLastDot (str2key ".users.freqs") = some (str2key "freqs") := by decide
  cases f with
  | nil => decide
  | cons c rest =>
    rw [List.cons_append]
    show (if c = 46 then afterLastDot (rest ++ str2key ".users.freqs")
      else afterLastDot (c :: (rest ++ str2key ".users.freqs"))) = some (str2key "freqs")
    by_cases hc : c = 46
    · rw [if_pos hc]
      exact afterLastDot_append rest hsuffix
    · rw [if_neg hc]
      rw [show c :: (rest ++ str2key ".users.freqs") =
        (c :: rest) ++ str2key ".users.freqs" from rfl]
      exact afterLastDot_append (c :: rest) hsuffix

theorem builder_skips_of_output_present {dir : List Key} {f : Key}
    (h : (f ++ str2key ".users.freqs") ∈ dir) : f ∉ builderProcessed dir := by
  intro hmem
  rw [builderProcessed] at hmem
  have := List.of_mem_filter hmem
  simp at this
  exact this h

theorem builder_second_run_empty (dir : List Key) :
    builderProcessed
        (dir ++ (builderProcessed dir).map (fun f => f ++ str2key ".users.freqs")) = [] := by
  set dir' := dir ++ (builderProcessed dir).map (fun f => f ++ str2key ".users.freqs")
    with hdir'
  rw [builderProcessed, List.filter_eq_nil_iff]
  intro f hf
  rw [mem_sortKeys, List.mem_filter] at hf
  obtain ⟨hfdir', hext⟩ := hf
  simp only [decide_eq_true_eq] at hext
  have hfdir : f ∈ dir := by
    rcases List.mem_append.mp hfdir' with h | h
    · exact h
    · exfalso
      rcases List.mem_map.mp h with ⟨g, _, hge⟩
      rw [← hge] at hext
      rw [extension_users_freqs g] at hext
      have : str2key "freqs" ≠ str2key "zst" := by decide
      exact this (Option.some.inj hext)
  simp only [decide_eq_true_eq, not_not]
  by_cases hout : (f ++ str2key ".users.freqs") ∈ dir
  · exact List.mem_append.mpr (Or.inl hout)
  · have hproc : f ∈ builderProcessed dir := by
      rw [builderProcessed, List.mem_filter, mem_sortKeys, List.mem_filter]
      refine ⟨⟨hfdir, by simp [hext]⟩, by simp [hout]⟩
    exact List.mem_append.mpr (Or.inr (List.mem_map.mpr ⟨f, hproc, rfl⟩))

theorem migrator_processes_all {dir : List Key} {f : Key} (hf : f ∈ dir)
    (hext : extension f = some (str2key "freqs")) : f ∈ migratorProcessed dir := by
  rw [migratorProcessed, mem_sortKeys, List.mem_filter]
  exact ⟨hf, by simp [hext]⟩

-- ## Claim theorems, counterexamples and witnesses

/-- Claim C1 counterexample: a file whose first record is valid, followed by
11 (more than the budget of 10) malformed lines. The budget is exceeded
inside the very batch holding the valid record; `break 'a` skips
`ti.ingest`, so the corpus handed to serialization is empty — not the sum
over the first valid record, which is non-empty. -/
theorem runReading_partial_batch_counterexample :
    runReading (toGood ([0], [([1], 1)]) :: List.replicate 11 LineEv.badLine) =
      some ([], []) ∧
    batchResult [([0], [([1], 1)])] = [([0], [([1], 1)])] ∧
    ([] : PooMap) ≠ [([0], [([1], 1)])] := by
  refine ⟨by decide, by decide, by decide⟩

theorem runReading_errorBudget_witness :
    runReading ((([] : List (List RecT)).flatten ++ [([0], [([1], 1)])]).map toGood
        ++ List.replicate 11 LineEv.badLine ++ []) =
      some (batchResult ([] : List (List RecT)).flatten,
        List.replicate (11 - 11) LineEv.badLine ++ []) :=
  runReading_errorBudget [] [([0], [([1], 1)])] 11 []
    (by intro b hb; cases hb) (by intro r hr; cases hr) (by decide) (by decide)

/-- Claim C2 counterexample: a word whose stored count is `2^64 - 1` merged
with one more occurrence wraps to `0` — the count decreases and does not
saturate at the 64-bit maximum. -/
theorem mergeInner_wraps_counterexample :
    mergeInner [([0], U64M - 1)] [([0], 1)] = [([0], 0)] ∧
    (0 : Nat) < U64M - 1 := by
  refine ⟨by decide, by decide⟩

/-- Claim C2 (amended): per-word counters are 64-bit *wrapping* counters:
merging adds occurrence counts modulo `2^64`, so a stored count never
decreases as long as the 64-bit sum does not overflow, and on overflow it
wraps around to the low 64 bits instead of saturating; a count absent on
one side passes through unchanged. -/
theorem mergeInner_wrapping {a b : PooMapInner} (ha : WFInner a) (hb : WFInner b) :
    (∀ (k : Key) (va vb : Nat), lookupA a k = some va → lookupA b k = some vb →
      lookupA (mergeInner a b) k = some ((va + vb) % U64M) ∧
      (va + vb < U64M → lookupA (mergeInner a b) k = some (va + vb) ∧ va ≤ va + vb)) ∧
    (∀ (k : Key) (va : Nat), lookupA a k = some va → lookupA b k = none →
      lookupA (mergeInner a b) k = some va) ∧
    (∀ (k : Key) (vb : Nat), lookupA a k = none → lookupA b k = some vb →
      lookupA (mergeInner a b) k = some vb) := by
  refine ⟨?_, ?_, ?_⟩
  · intro k va vb hva hvb
    have h := lookupA_mergeInner k ha.1 hb.1
    rw [hva, hvb] at h
    have he : lookupA (mergeInner a b) k = some ((va + vb) % U64M) := by
      rw [h]; rfl
    refine ⟨he, fun hlt => ⟨?_, Nat.le_add_right va vb⟩⟩
    rw [he, Nat.mod_eq_of_lt hlt]
  · intro k va hva hvb
    have h := lookupA_mergeInner k ha.1 hb.1
    rw [hva, hvb] at h
    exact h
  · intro k vb hva hvb
    have h := lookupA_mergeInner k ha.1 hb.1
    rw [hva, hvb] at h
    rw [h]
    have : wadd 0 vb = vb := wadd_self_of_lt (lookupA_VOK hb.2 hvb)
    simp [combineN, this]

theorem mergeInner_wrapping_witness :
    WFInner [([0], 2)] ∧ WFInner [([0], 3)] ∧
    lookupA (mergeInner [([0], 2)] [([0], 3)]) [0] = some 5 := by
  refine ⟨by decide, by decide, ?_⟩
  have h := (mergeInner_wrapping (a := [([0], 2)]) (b := [([0], 3)])
    (by decide) (by decide)).1 [0] 2 3 (by decide) (by decide)
  exact (h.2 (by decide)).1

/-- Claim C3: the get-or-create-then-increment merge is commutative and
associative on well-formed two-level maps, and therefore the final corpus is
invariant under how the records are partitioned into worker folds and under
the shape of the pairwise reduction tree (any batch sizes, any worker-pool
size ≥ 1). -/
theorem merge_invariance :
    (∀ a b : PooMap, WFOuter a → WFOuter b → mergeOuter a b = mergeOuter b a) ∧
    (∀ a b c : PooMap, WFOuter a → WFOuter b → WFOuter c →
      mergeOuter (mergeOuter a b) c = mergeOuter a (mergeOuter b c)) ∧
    (∀ parts : List (List RecT), (∀ r ∈ parts.flatten, SortedK r.2) →
      (parts.map batchResult).foldl mergeOuter [] = batchResult parts.flatten) ∧
    (∀ t : RTree, (∀ r ∈ flattenT t, SortedK r.2) →
      reduceTree t = batchResult (flattenT t)) :=
  ⟨fun _ _ ha hb => mergeOuter_comm ha hb,
   fun _ _ _ ha hb hc => mergeOuter_assoc ha hb hc,
   fun parts h => by
     rw [foldl_mergeOuter_parts parts [] WFOuter_nil h,
       mergeOuter_nil_left (WFOuter_batchResult _)],
   fun t h => reduceTree_eq t h⟩

theorem merge_invariance_witness :
    WFOuter [([0], [([5], 2)])] ∧
    WFOuter [([0], [([5], 3)]), ([1], [([6], 1)])] ∧
    mergeOuter [([0], [([5], 2)])] [([0], [([5], 3)]), ([1], [([6], 1)])] =
      mergeOuter [([0], [([5], 3)]), ([1], [([6], 1)])] [([0], [([5], 2)])] := by
  refine ⟨by decide, by decide, ?_⟩
  exact merge_invariance.1 [([0], [([5], 2)])] [([0], [([5], 3)]), ([1], [([6], 1)])]
    (by decide) (by decide)

theorem deserialize_serialize_witness :
    CorpusBounded [([255, 254], [([0], U64M - 1)])] ∧
    deserialize (serialize_with_writer [([255, 254], [([0], U64M - 1)])]) =
      Except.ok ([([255, 254], [([0], U64M - 1)])], []) ∧
    deserialize (serialize_with_writer []) = Except.ok ([], []) :=
  ⟨by decide, deserialize_serialize _ (by decide), deserialize_serialize [] (by decide)⟩

/-- Claim C5: `process_alt` returns exactly the word-count map of the
spec's pipeline — retain alphanumeric and whitespace characters, casefold,
split on runs of whitespace, count every token (keyed by its UTF-8 bytes) —
for every classification table and every input; the result is a well-formed
map, and on `"Hello, World! 123"` with the ASCII tables it is exactly
`{"123": 1, "hello": 1, "world": 1}` (in sorted byte order). -/
theorem process_alt_correct :
    (∀ (T : CharTables) (text : List Char) (k : Key),
      lookupA (process_alt T text) k =
        if ((specTokens T text).map utf8).count k = 0 then none
        else some (((specTokens T text).map utf8).count k % U64M)) ∧
    (∀ (T : CharTables) (text : List Char), WFInner (process_alt T text)) ∧
    process_alt asciiTables ("Hello, World! 123".data) =
      [(str2key "123", 1), (str2key "hello", 1), (str2key "world", 1)] :=
  ⟨lookupA_process_alt, WFInner_process_alt, by decide⟩

/-- Claim C6: on a well-formed source, `read_until` consumes and appends
exactly the bytes up to and including the first delimiter, or all remaining
bytes if no delimiter occurs, returning the number of bytes consumed —
which is zero exactly when no bytes remain; a read that fails as
interrupted is retried transparently, and any other I/O error is returned
to the caller. -/
theorem read_until_contract :
    (∀ (delim : Nat) (src : Src), chunksOnly src →
      ∀ (buf : List Nat) (readn : Nat),
        (read_until delim src buf readn).1 =
          Except.ok (readn + consumedLen delim (flatSrc src),
            buf ++ (flatSrc src).take (consumedLen delim (flatSrc src)))) ∧
    (∀ (delim : Nat) (flat : List Nat), consumedLen delim flat = 0 ↔ flat = []) ∧
    (∀ (delim : Nat) (src : Src) (buf : List Nat) (readn : Nat),
      read_until delim (SrcEv.ioerr true :: src) buf readn =
        read_until delim src buf readn) ∧
    (∀ (delim : Nat) (src : Src) (buf : List Nat) (readn : Nat),
      read_until delim (SrcEv.ioerr false :: src) buf readn =
        (Except.error (), src)) :=
  ⟨fun _ _ h => read_until_spec_chunks h,
   fun _ _ => consumedLen_eq_zero_iff,
   read_until_skip_interrupted, read_until_fatal⟩

theorem read_until_contract_witness :
    chunksOnly [SrcEv.chunk [65, 10, 66]] ∧
    (read_until 10 [SrcEv.chunk [65, 10, 66]] [] 0).1 = Except.ok (2, [65, 10]) := by
  refine ⟨by decide, ?_⟩
  have h := read_until_contract.1 10 [SrcEv.chunk [65, 10, 66]] (by decide) [] 0
  rw [h]
  decide

/-- Claim C8 counterexample: the migration tool's per-file loop has no
existence check — a `.freqs` input is processed even when its
`.users.freqs.migrated` output is already present in the directory. -/
theorem migrator_no_skip_counterexample :
    str2key "a.users.freqs" ∈ migratorProcessed
      [str2key "a.users.freqs",
       str2key "a.users.freqs" ++ str2key ".users.freqs.migrated"] := by
  decide

/-- Claim C8 (amended): only the builder skips on output presence — a `.zst`
file whose `<name>.users.freqs` path already exists is not processed, and a
second run over the directory extended with the first run's outputs
processes nothing; the migration tool processes every file with extension
`freqs` on every run, with no skip check at all. -/
theorem skip_logic :
    (∀ (dir : List Key) (f : Key), (f ++ str2key ".users.freqs") ∈ dir →
      f ∉ builderProcessed dir) ∧
    (∀ dir : List Key,
      builderProcessed (dir ++ (builderProcessed dir).map
        (fun f => f ++ str2key ".users.freqs")) = []) ∧
    (∀ (dir : List Key) (f : Key), f ∈ dir →
      extension f = some (str2key "freqs") → f ∈ migratorProcessed dir) :=
  ⟨fun _ _ h => builder_skips_of_output_present h,
   builder_second_run_empty,
   fun _ _ hf hext => migrator_processes_all hf hext⟩

theorem skip_logic_witness :
    (str2key "a.zst" ++ str2key ".users.freqs") ∈
      [str2key "a.zst", str2key "a.zst.users.freqs"] ∧
    str2key "a.zst" ∉
      builderProcessed [str2key "a.zst", str2key "a.zst.users.freqs"] := by
  refine ⟨by decide, ?_⟩
  exact skip_logic.1 [str2key "a.zst", str2key "a.zst.users.freqs"]
    (str2key "a.zst") (by decide)

/-- Claim C9: in both `run_for_file` epilogues, `encoder.finish()` is always
invoked — also when serialization failed — and a serialization error is
surfaced as a reported error step, not a crash; a `finish` error is
likewise only reported. -/
theorem encode_failure_still_finalizes :
    (∀ ser fin : Except String Unit,
      WStep.finishCall ∈ runForFileEpilogue ser fin ∧
      (∀ e, ser = Except.error e →
        WStep.reportSerializeError e ∈ runForFileEpilogue ser fin) ∧
      (∀ e, fin = Except.error e →
        WStep.reportFinishError e ∈ runForFileEpilogue ser fin)) ∧
    (∀ ser fin : Except String Unit,
      runForFileEpilogueMigrate ser fin = runForFileEpilogue ser fin) := by
  constructor
  · intro ser fin
    refine ⟨?_, ?_, ?_⟩
    · cases ser <;> cases fin <;> simp [runForFileEpilogue]
    · intro e he
      subst he
      cases fin <;> simp [runForFileEpilogue]
    · intro e he
      subst he
      cases ser <;> simp [runForFileEpilogue]
  · intro ser fin
    rfl

theorem encode_failure_still_finalizes_witness :
    WStep.finishCall ∈
      runForFileEpilogue (Except.error "boom") (Except.ok ()) ∧
    WStep.reportSerializeError "boom" ∈
      runForFileEpilogue (Except.error "boom") (Except.ok ()) :=
  ⟨(encode_failure_still_finalizes.1 (Except.error "boom") (Except.ok ())).1,
   (encode_failure_still_finalizes.1 (Except.error "boom") (Except.ok ())).2.1
     "boom" rfl⟩

/-- Claim C10: on a well-formed source with at least one byte remaining,
`read_until` consumes at least one byte and returns a non-empty buffer —
the zero-length-line branch is reachable only at end-of-input; a line
consisting solely of the newline delimiter yields the one-byte buffer
`[10]`, which fails the `line.len() == 0` test and is therefore handed to
the JSON decoder (a malformed-line failure), never the empty-line branch. -/
theorem empty_line_only_at_eof :
    (∀ (delim : Nat) (src : Src), chunksOnly src → flatSrc src ≠ [] →
      ∀ (buf : List Nat) (readn : Nat), ∃ n out,
        (read_until delim src buf readn).1 = Except.ok (readn + n, buf ++ out) ∧
        1 ≤ n ∧ out ≠ []) ∧
    read_until 10 [SrcEv.chunk [10]] [] 0 = (Except.ok (1, [10]), []) ∧
    takesEmptyLineBranch [10] = false := by
  refine ⟨?_, by decide, by decide⟩
  intro delim src hck hflat buf readn
  refine ⟨consumedLen delim (flatSrc src),
    (flatSrc src).take (consumedLen delim (flatSrc src)),
    read_until_spec_chunks hck buf readn, ?_, ?_⟩
  · have hne : consumedLen delim (flatSrc src) ≠ 0 :=
      fun h0 => hflat (consumedLen_eq_zero_iff.mp h0)
    omega
  · have hne : consumedLen delim (flatSrc src) ≠ 0 :=
      fun h0 => hflat (consumedLen_eq_zero_iff.mp h0)
    have htake : ∀ (n : Nat) (l : List Nat), n ≠ 0 → l ≠ [] → l.take n ≠ [] := by
      intro n l hn hl
      cases n with
      | zero => exact absurd rfl hn
      | succ m =>
        cases l with
        | nil => exact absurd rfl hl
        | cons x xs => simp
    exact htake _ _ hne hflat

theorem empty_line_only_at_eof_witness :
    chunksOnly [SrcEv.chunk [65]] ∧ flatSrc [SrcEv.chunk [65]] ≠ [] ∧
    ∃ n out, (read_until 10 [SrcEv.chunk [65]] [] 0).1 =
      Except.ok (0 + n, [] ++ out) ∧ 1 ≤ n ∧ out ≠ [] :=
  ⟨by decide, by decide,
   empty_line_only_at_eof.1 10 [SrcEv.chunk [65]] (by decide) (by decide) [] 0⟩
